import Mathlib

/-!
# Verification of `sdjson` (singledispatch-json)

A shallow embedding of `src/sdjson.py` together with the parts of the host
JSON library (CPython's `json` module, pure-Python implementation) that the
module delegates to.  The embedding restricts the value space to values
representable in an inductive type: JSON numbers are arbitrary-precision
integers (floats are outside the model), dictionary keys are strings, and
`PyValue.custom` models instances of user classes that do not inherit from
any natively JSON-encodable type.  Since the values are inductive, reference
cycles cannot occur, so the cycle-detection machinery of the host encoder
(`check_circular` markers) is semantically inert and is carried as
configuration only.

Unbounded recursion can still arise through registered encoder functions
(an encoder may return a value that itself needs custom encoding), mirroring
CPython's recursion limit; the encoder and parser therefore take an explicit
fuel argument and fail with a recursion error when it runs out.
-/

/-- A Python value, as far as the JSON machinery observes it.
`custom` models an instance of a user-defined class whose method resolution
order (list of class names, most specific first, ending with "object") is
`mro` and whose attributes are `fields`; such classes are assumed not to
inherit from natively encodable types (`str`, `int`, ...). -/
inductive PyValue where
  | none
  | bool (b : Bool)
  | int (n : Int)
  | str (s : String)
  | list (xs : List PyValue)
  | dict (fs : List (String × PyValue))
  | custom (mro : List String) (fields : List (String × PyValue))

/-- The method resolution order of a value's runtime type, as class names.
Mirrors CPython: `bool` is a subclass of `int`. -/
def typeMro : PyValue → List String
  | .none => ["NoneType", "object"]
  | .bool _ => ["bool", "int", "object"]
  | .int _ => ["int", "object"]
  | .str _ => ["str", "object"]
  | .list _ => ["list", "object"]
  | .dict _ => ["dict", "object"]
  | .custom mro _ => mro

/-- `isinstance(v, T)` for a class named `ty`: membership in the runtime
type's method resolution order. -/
def isinstance (v : PyValue) (ty : String) : Bool :=
  (typeMro v).contains ty

/-- Names of the natively JSON-encodable types; a `PyValue.custom` faithfully
models a Python object only when its mro avoids all of them (the host
encoder would encode such instances natively, before consulting the
`default` hook). -/
def nativeTypeNames : List String :=
  ["NoneType", "bool", "int", "float", "str", "list", "tuple", "dict"]

/-- A user-class mro: mentions no natively encodable type. -/
def nativeFree (mro : List String) : Bool :=
  nativeTypeNames.all (fun t => !(mro.contains t))

/-- One entry of `dump.registry` (the `functools.singledispatch` registry):
a registered class name together with the registered function. -/
structure RegEntry where
  ty : String
  fn : PyValue → PyValue

/-- The `functools.singledispatch` registry of `dump`: a dict from classes to
functions, in insertion order.  The entry for `object` (holding the base
implementation of `dump`) is always present, first. -/
abbrev Registry := List RegEntry

/-- The initial registry created by the `@singledispatch` decoration of
`dump`: only the `object` entry, holding the base implementation (never
used as an encoder; modelled by the identity function). -/
def initRegistry : Registry := [⟨"object", fun v => v⟩]

/-- `registry[cls] = func` on a Python dict: replaces in place when the key
is already present (keeping its original position in iteration order),
otherwise appends at the end. -/
def regInsert : Registry → String → (PyValue → PyValue) → Registry
  | [], ty, fn => [⟨ty, fn⟩]
  | e :: rest, ty, fn =>
    if e.ty = ty then ⟨ty, fn⟩ :: rest else e :: regInsert rest ty fn

/-- Dict lookup in the registry by class name. -/
def lookupReg : Registry → String → Option (PyValue → PyValue)
  | [], _ => Option.none
  | e :: rest, ty => if e.ty = ty then some e.fn else lookupReg rest ty

/-- `dump.register(cls)` applied to an encoder function `fn`
(`functools.singledispatch.register`): records `fn` under `cls` in the
registry and returns `fn` itself unchanged. -/
def registerDecorator (reg : Registry) (ty : String) (fn : PyValue → PyValue) :
    (PyValue → PyValue) × Registry :=
  (fn, regInsert reg ty fn)

/-- The loop of `_CustomEncoder.default` (src/sdjson.py lines 243-245):
iterate `dump.registry.items()` in order and return the handler of the first
entry with `isinstance(o, type_) and type_ is not object`. -/
def resolveEncoder : Registry → PyValue → Option (PyValue → PyValue)
  | [], _ => Option.none
  | e :: rest, v =>
    if isinstance v e.ty && !(e.ty == "object") then some e.fn
    else resolveEncoder rest v

/-- `functools.singledispatch` dispatch for `dump` itself: walk the mro of
the argument's runtime type, most specific first, and return the function
registered for the first registered class; reaching `object` selects the
base implementation (modelled as `Option.none`). -/
def dispatchSD (reg : Registry) (v : PyValue) : Option (PyValue → PyValue) :=
  go (typeMro v)
where
  go : List String → Option (PyValue → PyValue)
    | [] => Option.none
    | ty :: rest =>
      if ty = "object" then Option.none
      else match lookupReg reg ty with
        | some f => some f
        | Option.none => go rest

/-- Errors surfaced by the encoding and decoding machinery. -/
inductive PyError where
  | typeError
  | recursionError
  | decodeError
deriving DecidableEq, Repr

/-- The encoder classes a caller can pass as `cls` in this model: the plain
re-exported `JSONEncoder` (the escape hatch) or the registry-consulting
`_CustomEncoder`. -/
inductive EncoderCls where
  | JSONEncoder
  | CustomEncoder

/-- The keyword options of `dumps` (src/sdjson.py lines 139-141), with their
declared defaults; `kw` models the names of any extra keyword arguments. -/
structure Options where
  skipkeys : Bool := false
  ensure_ascii : Bool := true
  check_circular : Bool := true
  allow_nan : Bool := true
  cls : Option EncoderCls := Option.none
  indent : Option Nat := Option.none
  separators : Option (String × String) := Option.none
  default : Option (PyValue → Except PyError PyValue) := Option.none
  sort_keys : Bool := false
  kw : List String := []

/-- The library defaults of `dumps`. -/
def defaultOptions : Options := {}

/-- The fast-path test of `dumps` (src/sdjson.py lines 148-153). -/
def isDefaults (o : Options) : Bool :=
  !o.skipkeys && o.ensure_ascii && o.check_circular && o.allow_nan
    && o.cls.isNone && o.indent.isNone && o.separators.isNone
    && o.default.isNone && !o.sort_keys && o.kw.isEmpty

/-- The configuration a `json.JSONEncoder` instance derives from its
constructor arguments (json/encoder.py `JSONEncoder.__init__`): only the
fields the restricted value space can observe. -/
structure EncCfg where
  ensure_ascii : Bool
  sort_keys : Bool
  indent : Option Nat
  item_sep : String
  key_sep : String
deriving Repr

/-- Separator selection of `JSONEncoder.__init__`: explicit separators win;
otherwise the item separator is "," when an indent is given, else ", "
(the key separator defaults to ": "). -/
def sepPair (separators : Option (String × String)) (indent : Option Nat) :
    String × String :=
  match separators with
  | some s => s
  | Option.none => if indent.isSome then (",", ": ") else (", ", ": ")

/-- Build an encoder configuration from a call's options. -/
def encCfgOfOptions (o : Options) : EncCfg :=
  { ensure_ascii := o.ensure_ascii
    sort_keys := o.sort_keys
    indent := o.indent
    item_sep := (sepPair o.separators o.indent).1
    key_sep := (sepPair o.separators o.indent).2 }

/-- `json.JSONEncoder.default`: always raises TypeError (the
"not JSON serializable" terminal error). -/
def baseDefault : PyValue → Except PyError PyValue :=
  fun _ => .error .typeError

/-- `_CustomEncoder.default` (src/sdjson.py lines 242-246): consult the live
registry; on a match apply the handler, otherwise fall through to
`super().default`, i.e. the terminal TypeError. -/
def customDefault (reg : Registry) (v : PyValue) : Except PyError PyValue :=
  match resolveEncoder reg v with
  | some f => .ok (f v)
  | Option.none => baseDefault v

/-- The `default` hook an encoder instance actually uses: a caller-supplied
`default=` option shadows the class's `default` method
(json/encoder.py `JSONEncoder.__init__`). -/
def effectiveHook (reg : Registry) (deflt : Option (PyValue → Except PyError PyValue))
    (cls : EncoderCls) : PyValue → Except PyError PyValue :=
  match deflt with
  | some d => d
  | Option.none =>
    match cls with
    | .JSONEncoder => baseDefault
    | .CustomEncoder => customDefault reg

/-! ## Text production: the host encoder (json/encoder.py, pure-Python path) -/

/-- The decimal digit character for `d < 10`. -/
def digitChar (d : Nat) : Char := Char.ofNat (48 + d)

/-- Lowercase hexadecimal digit character for `d < 16` (CPython formats
escapes with `%04x`, lowercase). -/
def hexDigitChar (d : Nat) : Char :=
  if d < 10 then Char.ofNat (48 + d) else Char.ofNat (87 + d)

/-- Four lowercase hex digits of `n < 0x10000`, most significant first. -/
def hex4Chars (n : Nat) : List Char :=
  [hexDigitChar (n / 4096 % 16), hexDigitChar (n / 256 % 16),
   hexDigitChar (n / 16 % 16), hexDigitChar (n % 16)]

/-- Decimal digits of `n`, accumulator style (`fuel > n` suffices). -/
def natToDigitsAux : Nat → Nat → List Char → List Char
  | 0, _, acc => acc
  | fuel + 1, n, acc =>
    if n < 10 then digitChar n :: acc
    else natToDigitsAux fuel (n / 10) (digitChar (n % 10) :: acc)

/-- Decimal representation of a natural number. -/
def natRepr (n : Nat) : String := ⟨natToDigitsAux (n + 1) n []⟩

/-- `repr` of a Python int: decimal digits with a leading minus sign when
negative. -/
def intRepr (n : Int) : String :=
  if n < 0 then "-" ++ natRepr n.natAbs else natRepr n.toNat

/-- One character of `py_encode_basestring_ascii` (`ensure_ascii=True`):
backslash and quote escapes, short escapes for the usual control
characters, `\u00xx` for the other controls, the character itself for
printable ASCII, `\uxxxx` for other BMP characters and a surrogate pair
for astral characters. -/
def escCharAscii (c : Char) : List Char :=
  let n := c.toNat
  if n = 34 then ['\\', '"']
  else if n = 92 then ['\\', '\\']
  else if n = 8 then ['\\', 'b']
  else if n = 9 then ['\\', 't']
  else if n = 10 then ['\\', 'n']
  else if n = 12 then ['\\', 'f']
  else if n = 13 then ['\\', 'r']
  else if n < 32 then '\\' :: 'u' :: hex4Chars n
  else if n ≤ 126 then [c]
  else if n < 65536 then '\\' :: 'u' :: hex4Chars n
  else
    '\\' :: 'u' :: hex4Chars (55296 + (n - 65536) / 1024) ++
      '\\' :: 'u' :: hex4Chars (56320 + (n - 65536) % 1024)

/-- One character of `py_encode_basestring` (`ensure_ascii=False`): only
backslash, quote and control characters are escaped. -/
def escCharBasic (c : Char) : List Char :=
  let n := c.toNat
  if n = 34 then ['\\', '"']
  else if n = 92 then ['\\', '\\']
  else if n = 8 then ['\\', 'b']
  else if n = 9 then ['\\', 't']
  else if n = 10 then ['\\', 'n']
  else if n = 12 then ['\\', 'f']
  else if n = 13 then ['\\', 'r']
  else if n < 32 then '\\' :: 'u' :: hex4Chars n
  else [c]

/-- Concatenate the escape expansions of the characters of a string body. -/
def escapeChars (esc : Char → List Char) : List Char → List Char
  | [] => []
  | c :: cs => esc c ++ escapeChars esc cs

/-- JSON string literal for `s` under the given `ensure_ascii` policy. -/
def encodeString (ensureAscii : Bool) (s : String) : String :=
  ⟨'"' :: escapeChars (if ensureAscii then escCharAscii else escCharBasic) s.data ++ ['"']⟩

/-- `'\n'` followed by `ind * level` spaces (the newline-plus-indent prefix
of `_iterencode_list` and `_iterencode_dict` when an indent is set). -/
def nlIndent (ind level : Nat) : String :=
  ⟨'\n' :: List.replicate (ind * level) ' '⟩

/-- Join already-encoded member strings with a separator. -/
def joinSep (sep : String) : List String → String
  | [] => ""
  | [s] => s
  | s :: rest => s ++ sep ++ joinSep sep rest

/-- Wrap the encoded members of a non-empty container in its brackets,
following `_iterencode_list` and `_iterencode_dict`: without an indent the
members are joined by the item separator; with indent `ind` each member sits
on its own line at `level + 1`, and the closing bracket returns to
`level`. -/
def wrapSeq (cfg : EncCfg) (level : Nat) (opening closing : String)
    (items : List String) : String :=
  match cfg.indent with
  | Option.none => opening ++ joinSep cfg.item_sep items ++ closing
  | some ind =>
    opening ++ nlIndent ind (level + 1) ++
      joinSep (cfg.item_sep ++ nlIndent ind (level + 1)) items ++
      nlIndent ind level ++ closing

/-- Insert a field into a key-sorted field list, before the first strictly
greater key (stable, matching Python's stable `sorted`). -/
def insertField (p : String × PyValue) :
    List (String × PyValue) → List (String × PyValue)
  | [] => [p]
  | q :: rest => if p.1 ≤ q.1 then p :: q :: rest else q :: insertField p rest

/-- `sorted(dct.items())` on string keys (keys are unique in a dict, so
comparison never reaches the values). -/
def sortFields : List (String × PyValue) → List (String × PyValue)
  | [] => []
  | p :: rest => insertField p (sortFields rest)

/-- Encode each list member with `enc`, propagating the first error. -/
def encodeItems (enc : PyValue → Except PyError String) :
    List PyValue → Except PyError (List String)
  | [] => .ok []
  | x :: xs => do
    let s ← enc x
    let rest ← encodeItems enc xs
    .ok (s :: rest)

/-- Encode each dict field as `key-literal ++ key_sep ++ encoded value`. -/
def encodeFields (cfg : EncCfg) (enc : PyValue → Except PyError String) :
    List (String × PyValue) → Except PyError (List String)
  | [] => .ok []
  | (k, x) :: fs => do
    let s ← enc x
    let rest ← encodeFields cfg enc fs
    .ok ((encodeString cfg.ensure_ascii k ++ cfg.key_sep ++ s) :: rest)

/-- `_iterencode` of json/encoder.py, restricted to the modelled value
space, producing the concatenated output string.  Scalars are written
directly (`bool` is tested before `int`, as in the source); containers
recurse over their members at `level + 1`; a `custom` value is passed to
the `default` hook and the hook's result is re-encoded, consuming one unit
of fuel (the model of CPython's recursion limit). -/
def encodeVal (cfg : EncCfg) (hook : PyValue → Except PyError PyValue) :
    Nat → Nat → PyValue → Except PyError String
  | 0, _, _ => .error .recursionError
  | Nat.succ fuel, level, v =>
    match v with
    | .none => .ok "null"
    | .bool b => .ok (if b then "true" else "false")
    | .int n => .ok (intRepr n)
    | .str s => .ok (encodeString cfg.ensure_ascii s)
    | .list xs =>
      match xs with
      | [] => .ok "[]"
      | _ => do
        let items ← encodeItems (fun u => encodeVal cfg hook fuel (level + 1) u) xs
        .ok (wrapSeq cfg level "[" "]" items)
    | .dict fs =>
      match fs with
      | [] => .ok "\x7b\x7d"
      | _ => do
        let fs' := if cfg.sort_keys then sortFields fs else fs
        let items ← encodeFields cfg (fun u => encodeVal cfg hook fuel (level + 1) u) fs'
        .ok (wrapSeq cfg level "\x7b" "\x7d" items)
    | .custom mro fields => do
      let u ← hook (.custom mro fields)
      encodeVal cfg hook fuel level u

/-- The options with which the module-level `_default_encoder` is built
(src/sdjson.py lines 249-257; `sort_keys` is not passed, so it takes the
`JSONEncoder` class default `False`). -/
def defaultEncoderOptions : Options :=
  { skipkeys := false
    ensure_ascii := true
    check_circular := true
    allow_nan := true
    indent := Option.none
    separators := Option.none
    default := Option.none }

/-- `_default_encoder.encode(obj)`: the shared pre-built `_CustomEncoder`
instance.  Its configuration was fixed at import time, but its `default`
method reads the live registry on every call. -/
def defaultEncoderEncode (reg : Registry) (fuel : Nat) (v : PyValue) :
    Except PyError String :=
  encodeVal (encCfgOfOptions defaultEncoderOptions) (customDefault reg) fuel 0 v

/-- `sdjson.dumps` (src/sdjson.py lines 138-161): take the fast path through
the shared encoder when every option has its default value; otherwise build
a one-off encoder from `cls` (defaulting to `_CustomEncoder`).  Extra
keyword arguments are rejected by `JSONEncoder.__init__` with TypeError. -/
def dumps (reg : Registry) (opts : Options) (fuel : Nat) (v : PyValue) :
    Except PyError String :=
  if isDefaults opts then defaultEncoderEncode reg fuel v
  else if !opts.kw.isEmpty then .error .typeError
  else
    let cls := opts.cls.getD EncoderCls.CustomEncoder
    encodeVal (encCfgOfOptions opts) (effectiveHook reg opts.default cls) fuel 0 v

/-- The native `json.dumps`: same encoding machinery, but the default
encoder class is the plain `json.JSONEncoder` — the registry is reached
only if the caller passes the registry-aware class explicitly. -/
def jsonDumps (reg : Registry) (opts : Options) (fuel : Nat) (v : PyValue) :
    Except PyError String :=
  if !opts.kw.isEmpty then .error .typeError
  else
    let cls := opts.cls.getD EncoderCls.JSONEncoder
    encodeVal (encCfgOfOptions opts) (effectiveHook reg opts.default cls) fuel 0 v

/-- `sdjson.dump` (src/sdjson.py lines 121-133).  `dump` is decorated with
`@singledispatch`, so a call first dispatches on the runtime type of `obj`:
for a value of a registered class the registered one-argument encoder
function itself is invoked with two arguments `(obj, fp)`, a TypeError.
The base implementation computes `json.dumps(obj, **kwargs)` — the native
function, not `sdjson.dumps` — and writes it to the stream one character at
a time (iterating a string yields its characters).  The result is the list
of chunks written. -/
def dump (reg : Registry) (opts : Options) (fuel : Nat) (v : PyValue) :
    Except PyError (List String) :=
  match dispatchSD reg v with
  | some _ => .error .typeError
  | Option.none =>
    match jsonDumps reg opts fuel v with
    | .error e => .error e
    | .ok s => .ok (s.data.map (fun c => String.mk [c]))

/-! ## The host parser (json/decoder.py, pure-Python scanner) -/

/-- JSON whitespace (`WHITESPACE_STR` of json/decoder.py). -/
def isWsChar (c : Char) : Bool :=
  c = ' ' || c = '\t' || c = '\n' || c = '\r'

/-- Skip leading JSON whitespace. -/
def skipWs : List Char → List Char
  | [] => []
  | c :: rest => if isWsChar c then skipWs rest else c :: rest

/-- Value of a hexadecimal digit character, if it is one. -/
def hexDigitVal (c : Char) : Option Nat :=
  let n := c.toNat
  if 48 ≤ n ∧ n ≤ 57 then some (n - 48)
  else if 97 ≤ n ∧ n ≤ 102 then some (n - 87)
  else if 65 ≤ n ∧ n ≤ 70 then some (n - 55)
  else Option.none

/-- Value of four hex digit characters, most significant first. -/
def hex4Val (h1 h2 h3 h4 : Char) : Option Nat := do
  let d1 ← hexDigitVal h1
  let d2 ← hexDigitVal h2
  let d3 ← hexDigitVal h3
  let d4 ← hexDigitVal h4
  some (((d1 * 16 + d2) * 16 + d3) * 16 + d4)

/-- The body of a JSON string literal after the opening quote
(`py_scanstring`, strict mode): literal characters up to the closing quote,
rejecting raw control characters; backslash escapes from the escape table;
`\uXXXX` escapes, combining a high surrogate followed by `\u`-escaped low
surrogate into one code point (a lone surrogate becomes a raw code unit,
which the model maps through `Char.ofNat`). `acc` holds the characters
scanned so far, reversed; any `fuel` exceeding the input length behaves
identically, since every step consumes at least one character. -/
def parseStringBody : Nat → List Char → List Char → Option (String × List Char)
  | 0, _, _ => Option.none
  | Nat.succ fuel, acc, cs =>
    match cs with
    | [] => Option.none
    | c :: rest =>
      if c = '"' then some (⟨acc.reverse⟩, rest)
      else if c = '\\' then
        match rest with
        | 'u' :: h1 :: h2 :: h3 :: h4 :: r =>
          match hex4Val h1 h2 h3 h4 with
          | Option.none => Option.none
          | some uni =>
            if 55296 ≤ uni ∧ uni ≤ 56319 then
              match r with
              | '\\' :: 'u' :: g1 :: g2 :: g3 :: g4 :: r2 =>
                match hex4Val g1 g2 g3 g4 with
                | some uni2 =>
                  if 56320 ≤ uni2 ∧ uni2 ≤ 57343 then
                    parseStringBody fuel
                      (Char.ofNat (65536 + (uni - 55296) * 1024 + (uni2 - 56320)) :: acc) r2
                  else parseStringBody fuel (Char.ofNat uni :: acc)
                    ('\\' :: 'u' :: g1 :: g2 :: g3 :: g4 :: r2)
                | Option.none => parseStringBody fuel (Char.ofNat uni :: acc)
                    ('\\' :: 'u' :: g1 :: g2 :: g3 :: g4 :: r2)
              | _ => parseStringBody fuel (Char.ofNat uni :: acc) r
            else parseStringBody fuel (Char.ofNat uni :: acc) r
        | '"' :: r => parseStringBody fuel ('"' :: acc) r
        | '\\' :: r => parseStringBody fuel ('\\' :: acc) r
        | '/' :: r => parseStringBody fuel ('/' :: acc) r
        | 'b' :: r => parseStringBody fuel ('\x08' :: acc) r
        | 'f' :: r => parseStringBody fuel ('\x0c' :: acc) r
        | 'n' :: r => parseStringBody fuel ('\n' :: acc) r
        | 'r' :: r => parseStringBody fuel ('\x0d' :: acc) r
        | 't' :: r => parseStringBody fuel ('\t' :: acc) r
        | _ => Option.none
      else if c.toNat < 32 then Option.none
      else parseStringBody fuel (c :: acc) rest

/-- Decimal digit test. -/
def isDigitChar (c : Char) : Bool :=
  48 ≤ c.toNat && c.toNat ≤ 57

/-- Greedily consume decimal digits, accumulating their value onto `acc`. -/
def parseDigitsLoop (acc : Nat) : List Char → Nat × List Char
  | [] => (acc, [])
  | c :: rest =>
    if isDigitChar c then parseDigitsLoop (acc * 10 + (c.toNat - 48)) rest
    else (acc, c :: rest)

/-- The integer part of the number grammar `(?: 0 | [1-9][0-9]* )`: a lone
zero, or a nonzero digit followed by any digits. -/
def parseUInt : List Char → Option (Nat × List Char)
  | [] => Option.none
  | c :: rest =>
    if c = '0' then some (0, rest)
    else if 49 ≤ c.toNat ∧ c.toNat ≤ 57 then some (parseDigitsLoop 0 (c :: rest))
    else Option.none

/-- Does a fraction or exponent part follow (making the number a float in
the host parser)?  Floats are outside the modelled value space, so the
model's number branch refuses such inputs instead of producing a float. -/
def floatFollows (cs : List Char) : Bool :=
  match cs with
  | [] => false
  | c :: rest =>
    if c = '.' then (match rest with | d :: _ => isDigitChar d | [] => false)
    else if c = 'e' || c = 'E' then expDigits rest
    else false
where
  /-- An optional sign followed by a digit. -/
  expDigits : List Char → Bool
    | [] => false
    | c :: rest =>
      if c = '+' || c = '-' then (match rest with | d :: _ => isDigitChar d | [] => false)
      else isDigitChar c

/-- After the first element of an array (`JSONArray` of json/decoder.py):
skip whitespace, then either close at `]` or consume `,`, whitespace, and
the next element parsed by `pv`. -/
def parseArrayItems (pv : List Char → Option (PyValue × List Char)) :
    Nat → List Char → Option (List PyValue × List Char)
  | 0, _ => Option.none
  | Nat.succ fuel, cs => do
    let (v, rest) ← pv cs
    let rest1 := skipWs rest
    match rest1 with
    | ']' :: r => some ([v], r)
    | ',' :: r => do
      let (vs, r2) ← parseArrayItems pv fuel (skipWs r)
      some (v :: vs, r2)
    | _ => Option.none

/-- The members of an object (`JSONObject` of json/decoder.py): a
double-quoted key, whitespace, `:`, whitespace, a value parsed by `pv`,
then whitespace and either `,` (more members) or the closing brace. -/
def parseObjItems (pv : List Char → Option (PyValue × List Char)) :
    Nat → List Char → Option (List (String × PyValue) × List Char)
  | 0, _ => Option.none
  | Nat.succ fuel, cs =>
    match cs with
    | '"' :: r => do
      let (k, r1) ← parseStringBody fuel [] r
      let r2 := skipWs r1
      match r2 with
      | ':' :: r3 => do
        let (v, r4) ← pv (skipWs r3)
        let r5 := skipWs r4
        match r5 with
        | '\x7d' :: r6 => some ([(k, v)], r6)
        | ',' :: r6 => do
          let (kvs, r7) ← parseObjItems pv fuel (skipWs r6)
          some ((k, v) :: kvs, r7)
        | _ => Option.none
      | _ => Option.none
    | _ => Option.none

/-- `dict(pairs)`: fold the scanned key/value pairs into a dict, a repeated
key keeping its first position but taking its last value. -/
def addPair : List (String × PyValue) → String × PyValue → List (String × PyValue)
  | [], p => [p]
  | q :: rest, p => if q.1 = p.1 then (q.1, p.2) :: rest else q :: addPair rest p

/-- Build the dict underlying a scanned member list. -/
def dictOfPairs (ps : List (String × PyValue)) : List (String × PyValue) :=
  ps.foldl addPair []

/-- `scan_once` (`py_make_scanner` of json/decoder.py), restricted to the
modelled value space: strings, objects, arrays, the three literals, and
integers (an adjacent fraction or exponent part would make a float, which
the model refuses).  `NaN` and `Infinity` constants are floats and likewise
outside the model. -/
def parseVal : Nat → List Char → Option (PyValue × List Char)
  | 0, _ => Option.none
  | Nat.succ fuel, cs =>
    match cs with
    | [] => Option.none
    | c :: rest =>
      if c = '"' then (parseStringBody fuel [] rest).map (fun p => (.str p.1, p.2))
      else if c = '\x7b' then
        match skipWs rest with
        | [] => Option.none
        | d :: r1 =>
          if d = '\x7d' then some (.dict [], r1)
          else (parseObjItems (parseVal fuel) fuel (d :: r1)).map
            (fun p => (.dict (dictOfPairs p.1), p.2))
      else if c = '[' then
        match skipWs rest with
        | [] => Option.none
        | d :: r1 =>
          if d = ']' then some (.list [], r1)
          else (parseArrayItems (parseVal fuel) fuel (d :: r1)).map
            (fun p => (.list p.1, p.2))
      else if c = 'n' then
        match rest with
        | 'u' :: 'l' :: 'l' :: r => some (.none, r)
        | _ => Option.none
      else if c = 't' then
        match rest with
        | 'r' :: 'u' :: 'e' :: r => some (.bool true, r)
        | _ => Option.none
      else if c = 'f' then
        match rest with
        | 'a' :: 'l' :: 's' :: 'e' :: r => some (.bool false, r)
        | _ => Option.none
      else if c = '-' then
        match parseUInt rest with
        | some (n, r) => if floatFollows r then Option.none else some (.int (-(n : Int)), r)
        | Option.none => Option.none
      else if isDigitChar c then
        match parseUInt (c :: rest) with
        | some (n, r) => if floatFollows r then Option.none else some (.int (n : Int), r)
        | Option.none => Option.none
      else Option.none

/-- `sdjson.loads` = `json.loads` (src/sdjson.py lines 176-182 delegate
unchanged): skip leading whitespace, scan one value, skip trailing
whitespace, and reject any leftover input. -/
def loads (s : String) : Except PyError PyValue :=
  let cs := skipWs s.data
  match parseVal (cs.length + 1) cs with
  | Option.none => .error .decodeError
  | some (v, rest) =>
    if (skipWs rest).isEmpty then .ok v else .error .decodeError

/-! ## Concrete material shared by several claims: the Point scenario -/

/-- The spec's `encode_point`: a Point's attribute dict, insertion order
`x` then `y`. -/
def encodePointFn : PyValue → PyValue :=
  fun v => match v with
  | .custom _ fs => .dict fs
  | u => u

/-- The registry after `@sdjson.dump.register(Point)` of `encodePointFn`. -/
def pointRegistry : Registry := regInsert initRegistry "Point" encodePointFn

/-- `Point(1, 2)`. -/
def pointValue : PyValue :=
  .custom ["Point", "object"] [("x", .int 1), ("y", .int 2)]

/-- An encoder registered for `int`, a natively encodable type. -/
def intEncoderX : PyValue → PyValue := fun _ => .str "X"

/-- The registry after registering `intEncoderX` for `int`. -/
def intRegistry : Registry := regInsert initRegistry "int" intEncoderX

/-- Encoder registered first, for class `A`. -/
def encA : PyValue → PyValue := fun _ => .str "first"

/-- Encoder registered second, for class `B`. -/
def encB : PyValue → PyValue := fun _ => .str "second"

/-- A value of class `Sub`, a subtype of both registered classes `B` and
`A` (neither is its runtime type). -/
def subValue : PyValue := .custom ["Sub", "B", "A", "object"] []

/-- The first encoder registered for `Blob`. -/
def oldBlobEnc : PyValue → PyValue := fun _ => .str "old"

/-- The replacing encoder registered for `Blob`. -/
def newBlobEnc : PyValue → PyValue := fun _ => .str "new"

/-- A value of the unregistered user class `Blob`. -/
def blobValue : PyValue := .custom ["Blob", "object"] []

/-- The encoder registered after import time, for class `Late`. -/
def lateEnc : PyValue → PyValue := fun _ => .str "late"

/-- A value of class `Late`. -/
def lateValue : PyValue := .custom ["Late", "object"] []

/-! ## Definitions supporting the round-trip law -/

/-- The decimal digit list of a natural number (what `natRepr` wraps). -/
def natDigits (n : Nat) : List Char := natToDigitsAux (n + 1) n []

/-- A well-formed natively encodable value: built only from null, booleans,
integers, strings, lists and dicts, with distinct keys in every dict (as a
Python dict has by construction). -/
inductive JsonWf : PyValue → Prop
  | none : JsonWf .none
  | bool (b : Bool) : JsonWf (.bool b)
  | int (n : Int) : JsonWf (.int n)
  | str (s : String) : JsonWf (.str s)
  | list (xs : List PyValue) : (∀ x ∈ xs, JsonWf x) → JsonWf (.list xs)
  | dict (fs : List (String × PyValue)) : (fs.map Prod.fst).Nodup →
      (∀ p ∈ fs, JsonWf p.2) → JsonWf (.dict fs)

/-- The first character of an encoded value: present, not whitespace, and
not a closing bracket. -/
def goodStart : List Char → Prop
  | [] => False
  | c :: _ => isWsChar c = false ∧ c ≠ ']' ∧ c ≠ '\x7d'

/-- A continuation that cannot extend a preceding numeral: empty, or
starting with something that is neither a digit, a fraction dot, nor an
exponent letter. -/
def numStop : List Char → Prop
  | [] => True
  | c :: _ => isDigitChar c = false ∧ c ≠ '.' ∧ c ≠ 'e' ∧ c ≠ 'E'

/-- `l` parses back to exactly `v`: whatever numeral-stopping continuation
is appended and whatever sufficient fuel is supplied, the scanner consumes
exactly `l` and returns `v`. -/
def ParsesBack (v : PyValue) (l : List Char) : Prop :=
  goodStart l ∧
    ∀ rest pf, l.length + rest.length < pf → numStop rest →
      parseVal pf (l ++ rest) = some (v, rest)

/-! ## Registry lemmas -/

theorem lookupReg_regInsert (reg : Registry) (ty : String) (fn : PyValue → PyValue) :
    lookupReg (regInsert reg ty fn) ty = some fn := by
  induction reg with
  | nil => simp [regInsert, lookupReg]
  | cons e rest ih =>
    by_cases h : e.ty = ty
    · simp [regInsert, lookupReg, h]
    · simp [regInsert, lookupReg, h, ih]

theorem regInsert_regInsert (reg : Registry) (ty : String)
    (f g : PyValue → PyValue) :
    regInsert (regInsert reg ty f) ty g = regInsert reg ty g := by
  induction reg with
  | nil => simp [regInsert]
  | cons e rest ih =>
    by_cases h : e.ty = ty
    · simp [regInsert, h]
    · simp [regInsert, h, ih]

/-- If no earlier entry matches (each is the `object` fallback or fails the
`isinstance` test), the first matching entry's handler is returned. -/
theorem resolveEncoder_first_match (pre post : Registry) (v : PyValue)
    (A : String) (fA : PyValue → PyValue)
    (hpre : ∀ e ∈ pre, e.ty = "object" ∨ isinstance v e.ty = false)
    (hA : isinstance v A = true) (hAo : A ≠ "object") :
    resolveEncoder (pre ++ ⟨A, fA⟩ :: post) v = some fA := by
  induction pre with
  | nil => simp [resolveEncoder, hA, hAo]
  | cons e rest ih =>
    have he := hpre e (by simp)
    have hrest : ∀ e ∈ rest, e.ty = "object" ∨ isinstance v e.ty = false :=
      fun e h => hpre e (by simp [h])
    rcases he with h | h
    · simp [resolveEncoder, h, ih hrest]
    · simp [resolveEncoder, h, ih hrest]

/-- If no entry matches, resolution signals "no handler". -/
theorem resolveEncoder_no_match (reg : Registry) (v : PyValue)
    (h : ∀ e ∈ reg, e.ty = "object" ∨ isinstance v e.ty = false) :
    resolveEncoder reg v = Option.none := by
  induction reg with
  | nil => rfl
  | cons e rest ih =>
    have he := h e (by simp)
    have hrest : ∀ e ∈ rest, e.ty = "object" ∨ isinstance v e.ty = false :=
      fun e hh => h e (by simp [hh])
    rcases he with h1 | h1
    · simp [resolveEncoder, h1, ih hrest]
    · simp [resolveEncoder, h1, ih hrest]

/-- When the key is not yet present, dict insertion appends at the end. -/
theorem regInsert_eq_append (reg : Registry) (ty : String) (fn : PyValue → PyValue)
    (h : ∀ e ∈ reg, e.ty ≠ ty) : regInsert reg ty fn = reg ++ [⟨ty, fn⟩] := by
  induction reg with
  | nil => rfl
  | cons e rest ih =>
    have he := h e (by simp)
    simp [regInsert, he, ih (fun e hh => h e (by simp [hh]))]

theorem isDefaults_defaultOptions : isDefaults defaultOptions = true := rfl

/-- At default options, `dumps` on a value with a resolvable custom encoder
performs one hook step: it encodes the handler's result, one fuel unit
down. -/
theorem dumps_defaults_step (reg : Registry) (fuel : Nat) (mro : List String)
    (fields : List (String × PyValue)) (f : PyValue → PyValue)
    (hres : resolveEncoder reg (.custom mro fields) = some f) :
    dumps reg defaultOptions (fuel + 1) (.custom mro fields) =
      dumps reg defaultOptions fuel (f (.custom mro fields)) := by
  simp [dumps, isDefaults_defaultOptions, defaultEncoderEncode, encodeVal,
    customDefault, hres, Bind.bind, Except.bind]

/-- At default options, `dumps` on a custom value with no registry match
falls through to the base encoder's terminal TypeError. -/
theorem dumps_defaults_nomatch (reg : Registry) (fuel : Nat) (mro : List String)
    (fields : List (String × PyValue))
    (hres : resolveEncoder reg (.custom mro fields) = Option.none) :
    dumps reg defaultOptions (fuel + 1) (.custom mro fields) =
      .error .typeError := by
  simp [dumps, isDefaults_defaultOptions, defaultEncoderEncode, encodeVal,
    customDefault, hres, baseDefault, Bind.bind, Except.bind]

/-- Entries before `ty`'s position cannot themselves be keyed by `ty` when
none of them matches `v` while `ty` does. -/
theorem no_earlier_entry_eq (reg : Registry) (ty : String) (v : PyValue)
    (hty : ty ≠ "object") (hin : isinstance v ty = true)
    (hpre : ∀ e ∈ reg, e.ty = "object" ∨ isinstance v e.ty = false) :
    ∀ e ∈ reg, e.ty ≠ ty := by
  intro e he heq
  rcases hpre e he with h | h
  · exact hty (heq ▸ h)
  · rw [heq, hin] at h
    exact Bool.noConfusion h

/-- C1: `serialize_to_stream` (`dump`) does NOT have identical semantics to
`serialize_to_string` (`dumps`): for a value of a registered custom type,
`dump` fails with TypeError (singledispatch routes the call to the
registered unary encoder with two arguments; even its base path calls the
native `json.dumps`, which never consults the registry), while `dumps`
succeeds.  For natively encodable values the two do agree, and the chunks
`dump` writes concatenate, in write order, exactly to the `dumps` string. -/
theorem c1_dump_diverges_from_dumps :
    dump pointRegistry defaultOptions 5 pointValue = .error .typeError ∧
    dumps pointRegistry defaultOptions 5 pointValue =
      .ok "\x7b\"x\": 1, \"y\": 2\x7d" ∧
    dump initRegistry defaultOptions 5 (.list [.int 1, .int 2]) =
      .ok ["[", "1", ",", " ", "2", "]"] ∧
    String.join ["[", "1", ",", " ", "2", "]"] = "[1, 2]" ∧
    dumps initRegistry defaultOptions 5 (.list [.int 1, .int 2]) = .ok "[1, 2]" :=
  ⟨rfl, rfl, rfl, rfl, rfl⟩

/-- C2 (counterexample): for a natively encodable registered type the
registered encoder is never invoked — the native encoder writes the value
directly and the `default` hook is not reached — so encoding `v` does not
equal encoding `f(v)`: with `f` registered for `int`, `dumps 7` is `"7"`,
not the encoding of `f(7)`. -/
theorem c2_counterexample_native_type :
    dumps intRegistry defaultOptions 5 (.int 7) ≠
      dumps intRegistry defaultOptions 5 (intEncoderX (.int 7)) := by
  intro h
  have h1 : dumps intRegistry defaultOptions 5 (.int 7) = .ok "7" := rfl
  have h2 : dumps intRegistry defaultOptions 5 (intEncoderX (.int 7)) =
      .ok "\"X\"" := rfl
  rw [h1, h2] at h
  exact absurd (Except.ok.inj h) (by decide)

/-- C2 (amended): for a registered type with no native JSON representation
(a user class inheriting from no native type), when registry resolution for
the value selects the registered encoder `f`, `dumps` at default options
encodes `f(v)` (one recursion step down); in particular the Point scenario
produces exactly the same text as encoding the returned mapping, with
insertion key order `x` then `y` preserved. -/
theorem c2_amended_custom_encoder_output (reg : Registry) (fuel : Nat)
    (mro : List String) (fields : List (String × PyValue)) (f : PyValue → PyValue)
    (hnf : nativeFree mro = true)
    (hres : resolveEncoder reg (.custom mro fields) = some f) :
    dumps reg defaultOptions (fuel + 1) (.custom mro fields) =
      dumps reg defaultOptions fuel (f (.custom mro fields)) ∧
    dumps pointRegistry defaultOptions 3 pointValue =
      .ok "\x7b\"x\": 1, \"y\": 2\x7d" ∧
    dumps pointRegistry defaultOptions 3 (.dict [("x", .int 1), ("y", .int 2)]) =
      .ok "\x7b\"x\": 1, \"y\": 2\x7d" :=
  ⟨dumps_defaults_step reg fuel mro fields f hres, rfl, rfl⟩

/-- C2 witness: the amended claim at the Point scenario. -/
theorem c2_witness :
    dumps pointRegistry defaultOptions 3 pointValue =
      dumps pointRegistry defaultOptions 2 (encodePointFn pointValue) :=
  (c2_amended_custom_encoder_output pointRegistry 2 ["Point", "object"]
    [("x", .int 1), ("y", .int 2)] encodePointFn (by decide) rfl).1

/-- C3: registry lookup iterates entries in insertion order, matching by
`isinstance` with the `object` entry excluded, and the first matching entry
wins — so of two registered ancestors of the value's type the
first-registered one is chosen (a later-registered match may sit in
`post`), and a value of a subtype of a registered type is encoded by that
ancestor's encoder instead of reaching the native TypeError. -/
theorem c3_first_match_insertion_order (pre post : Registry) (fuel : Nat)
    (mro : List String) (fields : List (String × PyValue)) (A : String)
    (fA : PyValue → PyValue)
    (hnf : nativeFree mro = true)
    (hpre : ∀ e ∈ pre, e.ty = "object" ∨ isinstance (PyValue.custom mro fields) e.ty = false)
    (hA : isinstance (PyValue.custom mro fields) A = true) (hAo : A ≠ "object") :
    resolveEncoder (pre ++ ⟨A, fA⟩ :: post) (.custom mro fields) = some fA ∧
    dumps (pre ++ ⟨A, fA⟩ :: post) defaultOptions (fuel + 1) (.custom mro fields) =
      dumps (pre ++ ⟨A, fA⟩ :: post) defaultOptions fuel (fA (.custom mro fields)) := by
  have hr := resolveEncoder_first_match pre post _ A fA hpre hA hAo
  exact ⟨hr, dumps_defaults_step _ fuel mro fields fA hr⟩

/-- C3 witness: with `A` registered before `B` and both ancestors of `Sub`,
the first-registered `A` encoder is selected for a `Sub` value. -/
theorem c3_witness :
    resolveEncoder (initRegistry ++ ⟨"A", encA⟩ :: [⟨"B", encB⟩]) subValue = some encA ∧
    dumps (initRegistry ++ ⟨"A", encA⟩ :: [⟨"B", encB⟩]) defaultOptions 3 subValue =
      dumps (initRegistry ++ ⟨"A", encA⟩ :: [⟨"B", encB⟩]) defaultOptions 2 (encA subValue) :=
  c3_first_match_insertion_order initRegistry [⟨"B", encB⟩] 2
    ["Sub", "B", "A", "object"] [] "A" encA (by decide)
    (by intro e he; simp [initRegistry] at he; subst he; exact Or.inl rfl)
    (by decide) (by decide)

/-- C4: passing the plain `JSONEncoder` class explicitly bypasses registry
lookup entirely — the result does not depend on the registry at all — and
for a value of a (registered or not) custom type the call fails with the
unserializable-type TypeError. -/
theorem c4_escape_hatch_bypasses_registry (opts : Options) (reg reg' : Registry)
    (fuel : Nat) (v : PyValue) (mro : List String)
    (fields : List (String × PyValue))
    (hcls : opts.cls = some EncoderCls.JSONEncoder)
    (hd : opts.default = Option.none) (hkw : opts.kw = [])
    (hmro : nativeFree mro = true) :
    dumps reg opts fuel v = dumps reg' opts fuel v ∧
    dumps reg opts (fuel + 1) (.custom mro fields) = .error .typeError := by
  have hnd : isDefaults opts = false := by
    simp [isDefaults, hcls]
  constructor
  · simp [dumps, hnd, hkw, hcls, effectiveHook, hd]
  · simp [dumps, hnd, hkw, hcls, effectiveHook, hd, encodeVal, baseDefault,
      Bind.bind, Except.bind]

/-- C4 witness: at the escape hatch, a registered Point still raises
TypeError. -/
theorem c4_witness :
    dumps pointRegistry { cls := some EncoderCls.JSONEncoder } 5 pointValue =
        dumps initRegistry { cls := some EncoderCls.JSONEncoder } 5 pointValue ∧
      dumps pointRegistry { cls := some EncoderCls.JSONEncoder } 5 pointValue =
        .error .typeError :=
  c4_escape_hatch_bypasses_registry { cls := some EncoderCls.JSONEncoder }
    pointRegistry initRegistry 4 pointValue ["Point", "object"]
    [("x", .int 1), ("y", .int 2)] rfl rfl rfl (by decide)

/-- C5: whenever every option equals the library default, the fast path
through the shared pre-built `_CustomEncoder` instance returns exactly what
a freshly constructed `_CustomEncoder` configured with those same options
would return. -/
theorem c5_fast_path_equals_slow_path (opts : Options) (reg : Registry)
    (fuel : Nat) (v : PyValue) (h : isDefaults opts = true) :
    dumps reg opts fuel v =
      encodeVal (encCfgOfOptions opts)
        (effectiveHook reg opts.default EncoderCls.CustomEncoder) fuel 0 v := by
  simp only [isDefaults, Bool.and_eq_true, Bool.not_eq_true',
    Option.isNone_iff_eq_none, List.isEmpty_iff] at h
  obtain ⟨⟨⟨⟨⟨⟨⟨⟨⟨hsk, hea⟩, hcc⟩, han⟩, hcls⟩, hind⟩, hsep⟩, hdef⟩, hsort⟩, hkw⟩ := h
  have hfast : dumps reg opts fuel v = defaultEncoderEncode reg fuel v := by
    simp [dumps, isDefaults, hsk, hea, hcc, han, hcls, hind, hsep, hdef, hsort, hkw]
  rw [hfast, defaultEncoderEncode]
  have hc : encCfgOfOptions defaultEncoderOptions = encCfgOfOptions opts := by
    simp [encCfgOfOptions, defaultEncoderOptions, sepPair, hea, hind, hsep, hsort]
  have hh : customDefault reg = effectiveHook reg opts.default EncoderCls.CustomEncoder := by
    rw [hdef]
    rfl
  rw [hc, hh]

/-- C5 witness: the fast path agrees with the slow path at the defaults on
a sample list. -/
theorem c5_witness :
    dumps initRegistry defaultOptions 5 (.list [.int 1, .str "a"]) =
      encodeVal (encCfgOfOptions defaultOptions)
        (effectiveHook initRegistry defaultOptions.default EncoderCls.CustomEncoder)
        5 0 (.list [.int 1, .str "a"]) :=
  c5_fast_path_equals_slow_path defaultOptions initRegistry 5
    (.list [.int 1, .str "a"]) rfl

/-- C7: re-registering a type replaces the previous entry completely — the
registry is exactly as if only the second registration had happened, the
first encoder no longer being present at all — and resolution for a value
of that type (with no earlier matching entry) selects the new encoder. -/
theorem c7_reregistration_replaces (reg : Registry) (ty : String)
    (f g : PyValue → PyValue) (v : PyValue)
    (hty : ty ≠ "object") (hin : isinstance v ty = true)
    (hpre : ∀ e ∈ reg, e.ty = "object" ∨ isinstance v e.ty = false) :
    regInsert (regInsert reg ty f) ty g = regInsert reg ty g ∧
    resolveEncoder (regInsert (regInsert reg ty f) ty g) v = some g := by
  have hrep := regInsert_regInsert reg ty f g
  have hne := no_earlier_entry_eq reg ty v hty hin hpre
  rw [hrep, regInsert_eq_append reg ty g hne]
  exact ⟨rfl, resolveEncoder_first_match reg [] v ty g hpre hin hty⟩

/-- C7 witness: registering `Blob` twice leaves exactly the second
encoder, which resolution then selects. -/
theorem c7_witness :
    regInsert (regInsert initRegistry "Blob" oldBlobEnc) "Blob" newBlobEnc =
        regInsert initRegistry "Blob" newBlobEnc ∧
      resolveEncoder (regInsert (regInsert initRegistry "Blob" oldBlobEnc) "Blob" newBlobEnc)
        blobValue = some newBlobEnc :=
  c7_reregistration_replaces initRegistry "Blob" oldBlobEnc newBlobEnc blobValue
    (by decide) (by decide)
    (by intro e he; simp [initRegistry] at he; subst he; exact Or.inl rfl)

/-- C8: a value of a type with no native representation and no genuine
registry match yields: resolution signalling "no handler" (never an
error), the base-object entry being skipped even though `isinstance`
against `object` holds, and `dumps` surfacing the native terminal
TypeError. -/
theorem c8_unregistered_type_error (reg : Registry) (fuel : Nat)
    (mro : List String) (fields : List (String × PyValue)) (f : PyValue → PyValue)
    (hnf : nativeFree mro = true)
    (hobj : isinstance (PyValue.custom mro fields) "object" = true)
    (hmatch : ∀ e ∈ reg, e.ty = "object" ∨ isinstance (PyValue.custom mro fields) e.ty = false) :
    resolveEncoder reg (.custom mro fields) = Option.none ∧
    resolveEncoder (⟨"object", f⟩ :: reg) (.custom mro fields) = Option.none ∧
    dumps reg defaultOptions (fuel + 1) (.custom mro fields) = .error .typeError := by
  have h1 := resolveEncoder_no_match reg _ hmatch
  refine ⟨h1, ?_, dumps_defaults_nomatch reg fuel mro fields h1⟩
  simp [resolveEncoder, h1]

/-- C8 witness: an unregistered `Blob` instance raises TypeError while
resolution itself merely reports "no handler". -/
theorem c8_witness :
    resolveEncoder initRegistry blobValue = Option.none ∧
      resolveEncoder (⟨"object", fun v => v⟩ :: initRegistry) blobValue = Option.none ∧
      dumps initRegistry defaultOptions 5 blobValue = .error .typeError :=
  c8_unregistered_type_error initRegistry 4 ["Blob", "object"] [] (fun v => v)
    (by decide) (by decide)
    (by intro e he; simp [initRegistry] at he; subst he; exact Or.inl rfl)

/-- C9: `register(T)` applied to an encoder function returns the function
itself unchanged (permitting decorator stacking), having recorded the
entry for `T` in the registry. -/
theorem c9_register_returns_function (reg : Registry) (ty : String)
    (fn : PyValue → PyValue) :
    (registerDecorator reg ty fn).1 = fn ∧
      lookupReg (registerDecorator reg ty fn).2 ty = some fn :=
  ⟨rfl, lookupReg_regInsert reg ty fn⟩

/-- C10: the default-options fast path reads the live registry: before a
registration a value of the class fails with TypeError through the shared
encoder instance, and after `regInsert` the very same fast path invokes the
newly registered encoder — the shared instance is never stale. -/
theorem c10_fast_path_sees_live_registry (reg : Registry) (fuel : Nat)
    (ty : String) (f : PyValue → PyValue) (mro : List String)
    (fields : List (String × PyValue))
    (hty : ty ≠ "object")
    (hin : isinstance (PyValue.custom mro fields) ty = true)
    (hnf : nativeFree mro = true)
    (hpre : ∀ e ∈ reg, e.ty = "object" ∨ isinstance (PyValue.custom mro fields) e.ty = false) :
    dumps reg defaultOptions (fuel + 1) (.custom mro fields) = .error .typeError ∧
    dumps (regInsert reg ty f) defaultOptions (fuel + 1) (.custom mro fields) =
      dumps (regInsert reg ty f) defaultOptions fuel (f (.custom mro fields)) := by
  have h1 := resolveEncoder_no_match reg _ hpre
  have hne := no_earlier_entry_eq reg ty _ hty hin hpre
  have hres : resolveEncoder (regInsert reg ty f) (.custom mro fields) = some f := by
    rw [regInsert_eq_append reg ty f hne]
    exact resolveEncoder_first_match reg [] _ ty f hpre hin hty
  exact ⟨dumps_defaults_nomatch reg fuel mro fields h1,
    dumps_defaults_step _ fuel mro fields f hres⟩

/-- C10 witness: a registration made after the shared encoder was built is
observed by the default-options path. -/
theorem c10_witness :
    dumps initRegistry defaultOptions 3 lateValue = .error .typeError ∧
      dumps (regInsert initRegistry "Late" lateEnc) defaultOptions 3 lateValue =
        dumps (regInsert initRegistry "Late" lateEnc) defaultOptions 2 (lateEnc lateValue) :=
  c10_fast_path_sees_live_registry initRegistry 2 "Late" lateEnc
    ["Late", "object"] [] (by decide) (by decide) (by decide)
    (by intro e he; simp [initRegistry] at he; subst he; exact Or.inl rfl)

/-! ## Round-trip support: characters and decimal numerals -/

theorem char_eq_of_toNat_eq {c d : Char} (h : c.toNat = d.toNat) : c = d := by
  rw [← Char.ofNat_toNat c, ← Char.ofNat_toNat d, h]

theorem char_ne_of_toNat {c : Char} {m : Nat} (h : c.toNat ≠ m) (d : Char)
    (hd : d.toNat = m) : c ≠ d :=
  fun e => h (by rw [e, hd])

theorem string_data_append (a b : String) : (a ++ b).data = a.data ++ b.data := rfl

theorem natToDigitsAux_acc (fuel : Nat) : ∀ n acc,
    natToDigitsAux fuel n acc = natToDigitsAux fuel n [] ++ acc := by
  induction fuel with
  | zero => intro n acc; rfl
  | succ fuel ih =>
    intro n acc
    by_cases h : n < 10
    · simp [natToDigitsAux, h]
    · simp only [natToDigitsAux, if_neg h]
      rw [ih (n / 10), ih (n / 10) [digitChar (n % 10)]]
      simp

theorem natToDigitsAux_fuel : ∀ n f1 f2 acc, n < f1 → n < f2 →
    natToDigitsAux f1 n acc = natToDigitsAux f2 n acc := by
  intro n
  induction n using Nat.strong_induction_on with
  | _ n ih =>
    intro f1 f2 acc h1 h2
    obtain ⟨g1, rfl⟩ : ∃ g, f1 = g + 1 := ⟨f1 - 1, by omega⟩
    obtain ⟨g2, rfl⟩ : ∃ g, f2 = g + 1 := ⟨f2 - 1, by omega⟩
    by_cases h : n < 10
    · simp [natToDigitsAux, h]
    · simp only [natToDigitsAux, if_neg h]
      have hd : n / 10 < n := Nat.div_lt_self (by omega) (by omega)
      exact ih (n / 10) hd g1 g2 _ (by omega) (by omega)

theorem natDigits_lt (n : Nat) (h : n < 10) : natDigits n = [digitChar n] := by
  simp [natDigits, natToDigitsAux, h]

theorem natDigits_ge (n : Nat) (h : 10 ≤ n) :
    natDigits n = natDigits (n / 10) ++ [digitChar (n % 10)] := by
  have hd : n / 10 < n := Nat.div_lt_self (by omega) (by omega)
  show natToDigitsAux (n + 1) n [] = _
  rw [show natToDigitsAux (n + 1) n [] =
      natToDigitsAux n (n / 10) [digitChar (n % 10)] by
    simp [natToDigitsAux, show ¬ n < 10 by omega]]
  rw [natToDigitsAux_acc n (n / 10)]
  rw [natToDigitsAux_fuel (n / 10) n (n / 10 + 1) [] hd (by omega)]
  rfl

theorem digitChar_toNat : ∀ d, d < 10 → (digitChar d).toNat = 48 + d := by decide

theorem isDigitChar_digitChar : ∀ d, d < 10 → isDigitChar (digitChar d) = true := by
  decide

theorem parseDigitsLoop_stop (a : Nat) (rest : List Char) (h : numStop rest) :
    parseDigitsLoop a rest = (a, rest) := by
  cases rest with
  | nil => rfl
  | cons c t => simp [parseDigitsLoop, h.1]

theorem parseDigitsLoop_digits (n : Nat) : ∀ a rest,
    parseDigitsLoop a (natDigits n ++ rest) =
      parseDigitsLoop (a * 10 ^ (natDigits n).length + n) rest := by
  induction n using Nat.strong_induction_on with
  | _ n ih =>
    intro a rest
    by_cases h : n < 10
    · rw [natDigits_lt n h]
      simp [parseDigitsLoop, isDigitChar_digitChar n h, digitChar_toNat n h]
    · have h10 : 10 ≤ n := by omega
      have hm : n % 10 < 10 := Nat.mod_lt _ (by omega)
      rw [natDigits_ge n h10, List.append_assoc,
        ih (n / 10) (Nat.div_lt_self (by omega) (by omega)) a _]
      simp only [List.cons_append, List.nil_append, parseDigitsLoop,
        isDigitChar_digitChar _ hm, if_pos, digitChar_toNat _ hm]
      congr 1
      have hlen1 : [digitChar (n % 10)].length = 1 := rfl
      rw [List.length_append, hlen1]
      have hmod : n / 10 * 10 + n % 10 = n := by omega
      have hsub : 48 + n % 10 - 48 = n % 10 := by omega
      rw [hsub]
      calc (a * 10 ^ (natDigits (n / 10)).length + n / 10) * 10 + n % 10
          = a * (10 ^ (natDigits (n / 10)).length * 10) + (n / 10 * 10 + n % 10) := by
            ring
        _ = a * 10 ^ ((natDigits (n / 10)).length + 1) + n := by
            rw [hmod, pow_succ]

theorem natDigits_head (n : Nat) (hn : 1 ≤ n) :
    ∃ c t, natDigits n = c :: t ∧ 49 ≤ c.toNat ∧ c.toNat ≤ 57 := by
  revert hn
  induction n using Nat.strong_induction_on with
  | _ n ih =>
    intro hn
    by_cases h : n < 10
    · refine ⟨digitChar n, [], natDigits_lt n h, ?_, ?_⟩
      · rw [digitChar_toNat n h]; omega
      · rw [digitChar_toNat n h]; omega
    · obtain ⟨c, t, he, h1, h2⟩ :=
        ih (n / 10) (Nat.div_lt_self (by omega) (by omega)) (by omega)
      refine ⟨c, t ++ [digitChar (n % 10)], ?_, h1, h2⟩
      rw [natDigits_ge n (by omega), he]
      rfl

theorem parseUInt_natDigits (m : Nat) (rest : List Char) (h : numStop rest) :
    parseUInt (natDigits m ++ rest) = some (m, rest) := by
  by_cases hm : m = 0
  · subst hm
    rw [natDigits_lt 0 (by omega)]
    have h0 : digitChar 0 = '0' := by decide
    rw [h0]
    simp [parseUInt]
  · obtain ⟨c, t, he, h1, h2⟩ := natDigits_head m (by omega)
    have hc0 : c ≠ '0' := char_ne_of_toNat (show c.toNat ≠ 48 by omega) '0' (by decide)
    rw [he, List.cons_append]
    rw [show parseUInt (c :: (t ++ rest)) =
        some (parseDigitsLoop 0 (c :: (t ++ rest))) by
      simp [parseUInt, hc0, h1, h2]]
    rw [show c :: (t ++ rest) = natDigits m ++ rest by rw [he]; rfl]
    rw [parseDigitsLoop_digits m 0 rest]
    simp [parseDigitsLoop_stop m rest h]

theorem floatFollows_of_numStop (rest : List Char) (h : numStop rest) :
    floatFollows rest = false := by
  cases rest with
  | nil => rfl
  | cons c t =>
    obtain ⟨hd, hdot, he, hE⟩ := h
    simp [floatFollows, hdot, he, hE]

theorem isDigitChar_true_of (c : Char) (h1 : 48 ≤ c.toNat) (h2 : c.toNat ≤ 57) :
    isDigitChar c = true := by
  simp [isDigitChar]
  omega

/-- Entering the scanner at a digit reaches the number branch. -/
theorem parseVal_digit_entry (pf : Nat) (c : Char) (tl : List Char)
    (h1 : 48 ≤ c.toNat) (h2 : c.toNat ≤ 57) :
    parseVal (pf + 1) (c :: tl) =
      (match parseUInt (c :: tl) with
       | some (n, r) => if floatFollows r then Option.none else some (.int (n : Int), r)
       | Option.none => Option.none) := by
  have hq : c ≠ '"' := char_ne_of_toNat (show c.toNat ≠ 34 by omega) '"' (by decide)
  have hb : c ≠ '\x7b' := char_ne_of_toNat (show c.toNat ≠ 123 by omega) '\x7b' (by decide)
  have hk : c ≠ '[' := char_ne_of_toNat (show c.toNat ≠ 91 by omega) '[' (by decide)
  have hn : c ≠ 'n' := char_ne_of_toNat (show c.toNat ≠ 110 by omega) 'n' (by decide)
  have ht : c ≠ 't' := char_ne_of_toNat (show c.toNat ≠ 116 by omega) 't' (by decide)
  have hf : c ≠ 'f' := char_ne_of_toNat (show c.toNat ≠ 102 by omega) 'f' (by decide)
  have hm : c ≠ '-' := char_ne_of_toNat (show c.toNat ≠ 45 by omega) '-' (by decide)
  simp [parseVal, hq, hb, hk, hn, ht, hf, hm, isDigitChar_true_of c h1 h2]

theorem intRepr_data_nonneg (n : Int) (h : 0 ≤ n) :
    (intRepr n).data = natDigits n.toNat := by
  rw [intRepr, if_neg (by omega)]
  rfl

theorem intRepr_data_neg (n : Int) (h : n < 0) :
    (intRepr n).data = '-' :: natDigits n.natAbs := by
  rw [intRepr, if_pos h]
  rfl

theorem goodStart_of_range (c : Char) (t : List Char)
    (h1 : 45 ≤ c.toNat) (h2 : c.toNat ≤ 57) : goodStart (c :: t) := by
  refine ⟨?_, ?_, ?_⟩
  · have hs : c ≠ ' ' := char_ne_of_toNat (show c.toNat ≠ 32 by omega) ' ' (by decide)
    have ht : c ≠ '\t' := char_ne_of_toNat (show c.toNat ≠ 9 by omega) '\t' (by decide)
    have hn : c ≠ '\n' := char_ne_of_toNat (show c.toNat ≠ 10 by omega) '\n' (by decide)
    have hr : c ≠ '\x0d' := char_ne_of_toNat (show c.toNat ≠ 13 by omega) '\x0d' (by decide)
    simp [isWsChar, hs, ht, hn, hr]
  · exact char_ne_of_toNat (show c.toNat ≠ 93 by omega) ']' (by decide)
  · exact char_ne_of_toNat (show c.toNat ≠ 125 by omega) '\x7d' (by decide)

theorem goodStart_intRepr (n : Int) : goodStart (intRepr n).data := by
  by_cases hn : n < 0
  · rw [intRepr_data_neg n hn]
    exact goodStart_of_range '-' _ (by decide) (by decide)
  · rw [intRepr_data_nonneg n (by omega)]
    by_cases hm : n.toNat = 0
    · rw [hm, natDigits_lt 0 (by omega)]
      exact goodStart_of_range (digitChar 0) _ (by decide) (by decide)
    · obtain ⟨c, t, he, h1, h2⟩ := natDigits_head n.toNat (by omega)
      rw [he]
      exact goodStart_of_range c t (by omega) (by omega)

theorem parseVal_intRepr (n : Int) (rest : List Char) (pf : Nat) (h : numStop rest) :
    parseVal (pf + 1) ((intRepr n).data ++ rest) = some (.int n, rest) := by
  have hff := floatFollows_of_numStop rest h
  by_cases hn : n < 0
  · rw [intRepr_data_neg n hn]
    have hm : 1 ≤ n.natAbs := by omega
    rw [show ('-' :: natDigits n.natAbs) ++ rest = '-' :: (natDigits n.natAbs ++ rest) from rfl]
    rw [show parseVal (pf + 1) ('-' :: (natDigits n.natAbs ++ rest)) =
        (match parseUInt (natDigits n.natAbs ++ rest) with
         | some (m, r) => if floatFollows r then Option.none else some (.int (-(m : Int)), r)
         | Option.none => Option.none) from by simp [parseVal]]
    rw [parseUInt_natDigits n.natAbs rest h]
    show (if floatFollows rest then Option.none
      else some (PyValue.int (-(n.natAbs : Int)), rest)) = some (PyValue.int n, rest)
    rw [hff]
    show some (PyValue.int (-(n.natAbs : Int)), rest) = some (PyValue.int n, rest)
    have habs : -((n.natAbs : Int)) = n := by omega
    rw [habs]
  · rw [intRepr_data_nonneg n (by omega)]
    have hhead : ∃ c t, natDigits n.toNat = c :: t ∧ 48 ≤ c.toNat ∧ c.toNat ≤ 57 := by
      by_cases hm : n.toNat = 0
      · rw [hm, natDigits_lt 0 (by omega)]
        exact ⟨digitChar 0, [], rfl, by decide, by decide⟩
      · obtain ⟨c, t, he, h1, h2⟩ := natDigits_head n.toNat (by omega)
        exact ⟨c, t, he, by omega, h2⟩
    obtain ⟨c, t, he, h1, h2⟩ := hhead
    rw [he, List.cons_append, parseVal_digit_entry pf c (t ++ rest) h1 h2]
    rw [show c :: (t ++ rest) = natDigits n.toNat ++ rest by rw [he]; rfl]
    rw [parseUInt_natDigits n.toNat rest h]
    show (if floatFollows rest then Option.none
      else some (PyValue.int ((n.toNat : Int)), rest)) = some (PyValue.int n, rest)
    rw [hff]
    show some (PyValue.int ((n.toNat : Int)), rest) = some (PyValue.int n, rest)
    have hcast : ((n.toNat : Int)) = n := by omega
    rw [hcast]

/-! ## Round-trip support: string literals -/

theorem charValidRange (c : Char) :
    c.toNat < 55296 ∨ (57343 < c.toNat ∧ c.toNat < 1114112) := c.valid

theorem hexDigitVal_hexDigitChar : ∀ d, d < 16 →
    hexDigitVal (hexDigitChar d) = some d := by decide

theorem hex4Val_hex4Chars (n : Nat) (h : n < 65536) :
    hex4Val (hexDigitChar (n / 4096 % 16)) (hexDigitChar (n / 256 % 16))
      (hexDigitChar (n / 16 % 16)) (hexDigitChar (n % 16)) = some n := by
  rw [hex4Val, hexDigitVal_hexDigitChar _ (by omega), hexDigitVal_hexDigitChar _ (by omega),
    hexDigitVal_hexDigitChar _ (by omega), hexDigitVal_hexDigitChar _ (by omega)]
  show some _ = some n
  congr 1
  omega

set_option maxHeartbeats 1000000 in
/-- Scanning an escaped quote. -/
theorem psbStepQuote (fuel : Nat) (acc tail : List Char) :
    parseStringBody (fuel + 1) acc (escCharAscii '"' ++ tail) =
      parseStringBody fuel ('"' :: acc) tail := rfl

set_option maxHeartbeats 1000000 in
/-- Scanning an escaped backslash. -/
theorem psbStepBackslash (fuel : Nat) (acc tail : List Char) :
    parseStringBody (fuel + 1) acc (escCharAscii '\\' ++ tail) =
      parseStringBody fuel ('\\' :: acc) tail := rfl

set_option maxHeartbeats 1000000 in
/-- Scanning the short escapes of the five common control characters. -/
theorem psbStepShort (fuel : Nat) (acc tail : List Char) :
    (parseStringBody (fuel + 1) acc (escCharAscii '\x08' ++ tail) =
      parseStringBody fuel ('\x08' :: acc) tail) ∧
    (parseStringBody (fuel + 1) acc (escCharAscii '\t' ++ tail) =
      parseStringBody fuel ('\t' :: acc) tail) ∧
    (parseStringBody (fuel + 1) acc (escCharAscii '\n' ++ tail) =
      parseStringBody fuel ('\n' :: acc) tail) ∧
    (parseStringBody (fuel + 1) acc (escCharAscii '\x0c' ++ tail) =
      parseStringBody fuel ('\x0c' :: acc) tail) ∧
    (parseStringBody (fuel + 1) acc (escCharAscii '\x0d' ++ tail) =
      parseStringBody fuel ('\x0d' :: acc) tail) :=
  ⟨rfl, rfl, rfl, rfl, rfl⟩

set_option maxHeartbeats 1000000 in
/-- Scanning a `\u00xx`-escaped control character. -/
theorem psbStepCtrl (c : Char) (fuel : Nat) (acc tail : List Char)
    (h32 : c.toNat < 32) (h8 : c.toNat ≠ 8) (h9 : c.toNat ≠ 9)
    (h10 : c.toNat ≠ 10) (h12 : c.toNat ≠ 12) (h13 : c.toNat ≠ 13) :
    parseStringBody (fuel + 1) acc (escCharAscii c ++ tail) =
      parseStringBody fuel (c :: acc) tail := by
  have hesc : escCharAscii c = '\\' :: 'u' :: hex4Chars c.toNat := by
    rw [escCharAscii]
    simp only [if_neg (show ¬ c.toNat = 34 by omega), if_neg (show ¬ c.toNat = 92 by omega),
      if_neg h8, if_neg h9, if_neg h10, if_neg h12, if_neg h13, if_pos h32]
  rw [hesc]
  have hh := hex4Val_hex4Chars c.toNat (by omega)
  simp only [hex4Chars, List.cons_append, List.nil_append]
  simp only [parseStringBody, hh]
  rw [if_pos trivial, if_neg (show ¬ (55296 ≤ c.toNat ∧ c.toNat ≤ 56319) by omega),
    Char.ofNat_toNat]
  rw [if_neg (show ('\\' : Char) ≠ '"' by decide)]

set_option maxHeartbeats 1000000 in
/-- Scanning a printable ASCII character written as itself. -/
theorem psbStepPlain (c : Char) (fuel : Nat) (acc tail : List Char)
    (h32 : 32 ≤ c.toNat) (h126 : c.toNat ≤ 126)
    (h34 : c.toNat ≠ 34) (h92 : c.toNat ≠ 92) :
    parseStringBody (fuel + 1) acc (escCharAscii c ++ tail) =
      parseStringBody fuel (c :: acc) tail := by
  have hesc : escCharAscii c = [c] := by
    rw [escCharAscii]
    simp only [if_neg h34, if_neg h92, if_neg (show ¬ c.toNat = 8 by omega),
      if_neg (show ¬ c.toNat = 9 by omega), if_neg (show ¬ c.toNat = 10 by omega),
      if_neg (show ¬ c.toNat = 12 by omega), if_neg (show ¬ c.toNat = 13 by omega),
      if_neg (show ¬ c.toNat < 32 by omega), if_pos h126]
  rw [hesc]
  have hq : c ≠ '"' := char_ne_of_toNat h34 '"' (by decide)
  have hs : c ≠ '\\' := char_ne_of_toNat h92 '\\' (by decide)
  simp only [List.cons_append, List.nil_append]
  simp only [parseStringBody, if_neg hq, if_neg hs, if_neg (show ¬ c.toNat < 32 by omega)]

set_option maxHeartbeats 1000000 in
/-- Scanning a `\uxxxx`-escaped character of the basic plane. -/
theorem psbStepBmp (c : Char) (fuel : Nat) (acc tail : List Char)
    (h127 : 126 < c.toNat) (h65536 : c.toNat < 65536) :
    parseStringBody (fuel + 1) acc (escCharAscii c ++ tail) =
      parseStringBody fuel (c :: acc) tail := by
  have hv := charValidRange c
  have hesc : escCharAscii c = '\\' :: 'u' :: hex4Chars c.toNat := by
    rw [escCharAscii]
    simp only [if_neg (show ¬ c.toNat = 34 by omega), if_neg (show ¬ c.toNat = 92 by omega),
      if_neg (show ¬ c.toNat = 8 by omega), if_neg (show ¬ c.toNat = 9 by omega),
      if_neg (show ¬ c.toNat = 10 by omega), if_neg (show ¬ c.toNat = 12 by omega),
      if_neg (show ¬ c.toNat = 13 by omega), if_neg (show ¬ c.toNat < 32 by omega),
      if_neg (show ¬ c.toNat ≤ 126 by omega), if_pos h65536]
  rw [hesc]
  have hh := hex4Val_hex4Chars c.toNat (by omega)
  have hns : ¬ (55296 ≤ c.toNat ∧ c.toNat ≤ 56319) := by omega
  simp only [hex4Chars, List.cons_append, List.nil_append]
  simp only [parseStringBody, hh]
  rw [if_pos trivial, if_neg hns, Char.ofNat_toNat]
  rw [if_neg (show ('\\' : Char) ≠ '"' by decide)]

set_option maxHeartbeats 1000000 in
/-- Scanning a high-surrogate escape immediately followed by a
low-surrogate escape combines them into one code point. -/
theorem psbStepPair (fuel : Nat) (acc rest : List Char) (hi lo : Nat)
    (h1 : 55296 ≤ hi) (h2 : hi ≤ 56319) (h3 : 56320 ≤ lo) (h4 : lo ≤ 57343) :
    parseStringBody (fuel + 1) acc
      (('\\' :: 'u' :: hex4Chars hi ++ '\\' :: 'u' :: hex4Chars lo) ++ rest) =
      parseStringBody fuel
        (Char.ofNat (65536 + (hi - 55296) * 1024 + (lo - 56320)) :: acc) rest := by
  have hh1 := hex4Val_hex4Chars hi (by omega)
  have hh2 := hex4Val_hex4Chars lo (by omega)
  simp only [hex4Chars, List.cons_append, List.nil_append, List.append_assoc]
  simp only [parseStringBody, hh1, hh2]
  rw [if_pos trivial, if_pos (show 55296 ≤ hi ∧ hi ≤ 56319 from ⟨h1, h2⟩),
    if_pos (show 56320 ≤ lo ∧ lo ≤ 57343 from ⟨h3, h4⟩)]
  rw [if_neg (show ('\\' : Char) ≠ '"' by decide)]

/-- Scanning a surrogate-pair escape of an astral character. -/
theorem psbStepAstral (c : Char) (fuel : Nat) (acc tail : List Char)
    (h65536 : 65536 ≤ c.toNat) :
    parseStringBody (fuel + 1) acc (escCharAscii c ++ tail) =
      parseStringBody fuel (c :: acc) tail := by
  have hv := charValidRange c
  have hesc : escCharAscii c =
      '\\' :: 'u' :: hex4Chars (55296 + (c.toNat - 65536) / 1024) ++
        '\\' :: 'u' :: hex4Chars (56320 + (c.toNat - 65536) % 1024) := by
    rw [escCharAscii]
    simp only [if_neg (show ¬ c.toNat = 34 by omega), if_neg (show ¬ c.toNat = 92 by omega),
      if_neg (show ¬ c.toNat = 8 by omega), if_neg (show ¬ c.toNat = 9 by omega),
      if_neg (show ¬ c.toNat = 10 by omega), if_neg (show ¬ c.toNat = 12 by omega),
      if_neg (show ¬ c.toNat = 13 by omega), if_neg (show ¬ c.toNat < 32 by omega),
      if_neg (show ¬ c.toNat ≤ 126 by omega), if_neg (show ¬ c.toNat < 65536 by omega)]
  rw [hesc]
  rw [psbStepPair fuel acc tail (55296 + (c.toNat - 65536) / 1024)
    (56320 + (c.toNat - 65536) % 1024) (by omega) (by omega) (by omega) (by omega)]
  have harith : 65536 + (55296 + (c.toNat - 65536) / 1024 - 55296) * 1024 +
      (56320 + (c.toNat - 65536) % 1024 - 56320) = c.toNat := by omega
  rw [harith, Char.ofNat_toNat]

/-- One escaped source character is scanned back to exactly that
character. -/
theorem parseStringBody_step (c : Char) (fuel : Nat) (acc tail : List Char) :
    parseStringBody (fuel + 1) acc (escCharAscii c ++ tail) =
      parseStringBody fuel (c :: acc) tail := by
  by_cases h34 : c.toNat = 34
  · have hc : c = '"' := char_eq_of_toNat_eq (show c.toNat = ('"').toNat from h34)
    subst hc; exact psbStepQuote fuel acc tail
  by_cases h92 : c.toNat = 92
  · have hc : c = '\\' := char_eq_of_toNat_eq (show c.toNat = ('\\').toNat from h92)
    subst hc; exact psbStepBackslash fuel acc tail
  by_cases h8 : c.toNat = 8
  · have hc : c = '\x08' := char_eq_of_toNat_eq (show c.toNat = ('\x08').toNat from h8)
    subst hc; exact (psbStepShort fuel acc tail).1
  by_cases h9 : c.toNat = 9
  · have hc : c = '\t' := char_eq_of_toNat_eq (show c.toNat = ('\t').toNat from h9)
    subst hc; exact (psbStepShort fuel acc tail).2.1
  by_cases h10 : c.toNat = 10
  · have hc : c = '\n' := char_eq_of_toNat_eq (show c.toNat = ('\n').toNat from h10)
    subst hc; exact (psbStepShort fuel acc tail).2.2.1
  by_cases h12 : c.toNat = 12
  · have hc : c = '\x0c' := char_eq_of_toNat_eq (show c.toNat = ('\x0c').toNat from h12)
    subst hc; exact (psbStepShort fuel acc tail).2.2.2.1
  by_cases h13 : c.toNat = 13
  · have hc : c = '\x0d' := char_eq_of_toNat_eq (show c.toNat = ('\x0d').toNat from h13)
    subst hc; exact (psbStepShort fuel acc tail).2.2.2.2
  by_cases h32 : c.toNat < 32
  · exact psbStepCtrl c fuel acc tail h32 h8 h9 h10 h12 h13
  by_cases h126 : c.toNat ≤ 126
  · exact psbStepPlain c fuel acc tail (by omega) h126 h34 h92
  by_cases h65536 : c.toNat < 65536
  · exact psbStepBmp c fuel acc tail (by omega) h65536
  · exact psbStepAstral c fuel acc tail (by omega)

theorem parseStringBody_escape : ∀ (cs : List Char) (fuel : Nat) (acc rest : List Char),
    cs.length < fuel →
    parseStringBody fuel acc (escapeChars escCharAscii cs ++ '"' :: rest) =
      some (⟨acc.reverse ++ cs⟩, rest) := by
  intro cs
  induction cs with
  | nil =>
    intro fuel acc rest h
    obtain ⟨f, rfl⟩ : ∃ f, fuel = f + 1 := ⟨fuel - 1, by omega⟩
    show parseStringBody (f + 1) acc ('"' :: rest) = _
    simp [parseStringBody]
  | cons c cs ih =>
    intro fuel acc rest h
    obtain ⟨f, rfl⟩ : ∃ f, fuel = f + 1 := ⟨fuel - 1, by omega⟩
    rw [show escapeChars escCharAscii (c :: cs) =
        escCharAscii c ++ escapeChars escCharAscii cs from rfl]
    have hlen : cs.length < f := by
      simp only [List.length_cons] at h
      omega
    rw [List.append_assoc, parseStringBody_step c f acc _,
      ih f (c :: acc) rest hlen]
    have hacc : (c :: acc).reverse ++ cs = acc.reverse ++ (c :: cs) := by simp
    rw [hacc]

set_option maxHeartbeats 1000000 in
theorem escCharAscii_len (c : Char) : 1 ≤ (escCharAscii c).length := by
  rw [escCharAscii]
  split_ifs <;>
    simp only [hex4Chars, List.length_cons, List.length_nil, List.length_append] <;>
    omega

theorem escapeChars_len (cs : List Char) :
    cs.length ≤ (escapeChars escCharAscii cs).length := by
  induction cs with
  | nil => simp [escapeChars]
  | cons c cs ih =>
    rw [show escapeChars escCharAscii (c :: cs) =
        escCharAscii c ++ escapeChars escCharAscii cs from rfl]
    rw [List.length_append, List.length_cons]
    have := escCharAscii_len c
    omega

theorem encodeString_data (s0 : String) :
    (encodeString true s0).data =
      '"' :: (escapeChars escCharAscii s0.data ++ ['"']) := rfl

theorem goodStart_encodeString (s0 : String) :
    goodStart (encodeString true s0).data := by
  rw [encodeString_data]
  exact ⟨by decide, by decide, by decide⟩

theorem parseVal_string (s0 : String) (rest : List Char) (pf : Nat)
    (h : (encodeString true s0).data.length + rest.length < pf + 1) :
    parseVal (pf + 1) ((encodeString true s0).data ++ rest) =
      some (.str s0, rest) := by
  have hlen : s0.data.length < pf := by
    have h1 := escapeChars_len s0.data
    rw [encodeString_data] at h
    simp only [List.length_cons, List.length_append, List.length_singleton] at h
    omega
  rw [encodeString_data]
  rw [show ('"' :: (escapeChars escCharAscii s0.data ++ ['"'])) ++ rest
      = '"' :: (escapeChars escCharAscii s0.data ++ '"' :: rest) from by simp]
  rw [show parseVal (pf + 1) ('"' :: (escapeChars escCharAscii s0.data ++ '"' :: rest)) =
      (parseStringBody pf [] (escapeChars escCharAscii s0.data ++ '"' :: rest)).map
        (fun p => (.str p.1, p.2)) from by simp [parseVal]]
  rw [parseStringBody_escape s0.data pf [] rest hlen]
  simp

/-! ## Round-trip support: containers -/

theorem encodeItems_forall2 (enc : PyValue → Except PyError String) :
    ∀ xs ss, encodeItems enc xs = .ok ss →
      List.Forall₂ (fun x s => enc x = .ok s) xs ss := by
  intro xs
  induction xs with
  | nil =>
    intro ss h
    simp only [encodeItems] at h
    cases h
    exact List.Forall₂.nil
  | cons x xs ih =>
    intro ss h
    cases henc : enc x with
    | error e => simp [encodeItems, henc, Bind.bind, Except.bind] at h
    | ok s1 =>
      cases hrest : encodeItems enc xs with
      | error e => simp [encodeItems, henc, hrest, Bind.bind, Except.bind] at h
      | ok ss1 =>
        simp only [encodeItems, henc, hrest, Bind.bind, Except.bind] at h
        cases h
        exact List.Forall₂.cons henc (ih ss1 hrest)

theorem encodeFields_forall2 (cfg : EncCfg) (enc : PyValue → Except PyError String) :
    ∀ fs ss, encodeFields cfg enc fs = .ok ss →
      List.Forall₂ (fun (kv : String × PyValue) si => ∃ vs, enc kv.2 = .ok vs ∧
        si = encodeString cfg.ensure_ascii kv.1 ++ cfg.key_sep ++ vs) fs ss := by
  intro fs
  induction fs with
  | nil =>
    intro ss h
    simp only [encodeFields] at h
    cases h
    exact List.Forall₂.nil
  | cons kv fs ih =>
    intro ss h
    obtain ⟨k, x⟩ := kv
    cases henc : enc x with
    | error e => simp [encodeFields, henc, Bind.bind, Except.bind] at h
    | ok s1 =>
      cases hrest : encodeFields cfg enc fs with
      | error e => simp [encodeFields, henc, hrest, Bind.bind, Except.bind] at h
      | ok ss1 =>
        simp only [encodeFields, henc, hrest, Bind.bind, Except.bind] at h
        cases h
        exact List.Forall₂.cons ⟨s1, henc, rfl⟩ (ih ss1 hrest)

theorem goodStart_ne_nil {l : List Char} (h : goodStart l) : l ≠ [] := by
  cases l with
  | nil => exact absurd h (by simp [goodStart])
  | cons c t => simp

theorem skipWs_goodStart (l t : List Char) (h : goodStart l) :
    skipWs (l ++ t) = l ++ t := by
  cases l with
  | nil => exact absurd h (by simp [goodStart])
  | cons c l' =>
    obtain ⟨hw, _, _⟩ := h
    simp [skipWs, hw]

theorem joinSep_single (sep si : String) : joinSep sep [si] = si := rfl

theorem joinSep_cons2 (sep si b : String) (bs : List String) :
    (joinSep sep (si :: b :: bs)).data =
      si.data ++ (sep.data ++ (joinSep sep (b :: bs)).data) := by
  show (si ++ sep ++ joinSep sep (b :: bs)).data = _
  rw [string_data_append, string_data_append, List.append_assoc]

theorem addPair_append (acc : List (String × PyValue)) (p : String × PyValue)
    (h : ∀ q ∈ acc, q.1 ≠ p.1) : addPair acc p = acc ++ [p] := by
  induction acc with
  | nil => rfl
  | cons q acc ih =>
    have hq := h q (by simp)
    simp only [addPair, if_neg hq]
    rw [ih (fun r hr => h r (by simp [hr]))]
    rfl

theorem dictOfPairs_nodup_aux : ∀ (fs acc : List (String × PyValue)),
    ((acc ++ fs).map Prod.fst).Nodup → List.foldl addPair acc fs = acc ++ fs := by
  intro fs
  induction fs with
  | nil => intro acc h; simp
  | cons p fs ih =>
    intro acc h
    have hassoc : (acc ++ [p]) ++ fs = acc ++ p :: fs := by simp
    have hfresh : ∀ q ∈ acc, q.1 ≠ p.1 := by
      intro q hq he
      have hnd : (acc.map Prod.fst ++ p.1 :: fs.map Prod.fst).Nodup := by simpa using h
      rw [List.nodup_append] at hnd
      exact hnd.2.2 (List.mem_map_of_mem Prod.fst hq) (by simp [he])
    show List.foldl addPair acc (p :: fs) = _
    rw [List.foldl_cons, addPair_append acc p hfresh, ih (acc ++ [p]) (by rw [hassoc]; exact h)]
    simp

theorem dictOfPairs_nodup (fs : List (String × PyValue))
    (h : (fs.map Prod.fst).Nodup) : dictOfPairs fs = fs := by
  have := dictOfPairs_nodup_aux fs [] (by simpa using h)
  simpa [dictOfPairs] using this

theorem goodStart_len_pos {l : List Char} (h : goodStart l) : 1 ≤ l.length := by
  cases l with
  | nil => exact absurd h (by simp [goodStart])
  | cons c t => simp

theorem joinSep_head_data (sep sj : String) (items' : List String) :
    ∃ t, (joinSep sep (sj :: items')).data = sj.data ++ t := by
  cases items' with
  | nil => exact ⟨[], by simp [joinSep_single]⟩
  | cons b bs => exact ⟨_, joinSep_cons2 sep sj b bs⟩

theorem numStop_comma (l : List Char) : numStop (',' :: l) :=
  ⟨by decide, by decide, by decide, by decide⟩

theorem numStop_rbracket (l : List Char) : numStop (']' :: l) :=
  ⟨by decide, by decide, by decide, by decide⟩

theorem numStop_rbrace (l : List Char) : numStop ('\x7d' :: l) :=
  ⟨by decide, by decide, by decide, by decide⟩

/-- Scanning the members of an encoded non-empty array consumes exactly the
joined member texts and the closing bracket. -/
theorem parse_array_items (x : PyValue) (si : String) (xs : List PyValue)
    (items : List String) (hx : ParsesBack x si.data)
    (h : List.Forall₂ (fun y sj => ParsesBack y sj.data) xs items) :
    ∀ (rest : List Char) (pfv pfa : Nat),
      items.length < pfa →
      (joinSep ", " (si :: items)).data.length + 1 + rest.length < pfv →
      parseArrayItems (parseVal pfv) pfa ((joinSep ", " (si :: items)).data ++ ']' :: rest) =
        some (x :: xs, rest) := by
  induction h generalizing x si with
  | nil =>
    intro rest pfv pfa hpa hpv
    obtain ⟨pa, rfl⟩ : ∃ pa, pfa = pa + 1 := ⟨pfa - 1, by omega⟩
    rw [joinSep_single] at hpv ⊢
    have hstep := hx.2 (']' :: rest) pfv (by simp only [List.length_cons]; omega)
      (numStop_rbracket rest)
    show parseArrayItems (parseVal pfv) (pa + 1) (si.data ++ ']' :: rest) = _
    simp only [parseArrayItems, Bind.bind, Option.bind, hstep]
    rw [show skipWs (']' :: rest) = ']' :: rest from by
      simp [skipWs, show isWsChar ']' = false from by decide]]
    rfl
  | cons hy h2 ih =>
    intro rest pfv pfa hpa hpv
    obtain ⟨pa, rfl⟩ : ∃ pa, pfa = pa + 1 := ⟨pfa - 1, by omega⟩
    rename_i y sj ys items'
    have hjoin := joinSep_cons2 ", " si sj items'
    rw [hjoin] at hpv ⊢
    have hsi1 := goodStart_len_pos hx.1
    have hsj1 := goodStart_len_pos hy.1
    have hpv' : si.data.length + 2 + (joinSep ", " (sj :: items')).data.length
        + 1 + rest.length < pfv := by
      have hc2 : (", ").data.length = 2 := rfl
      rw [List.length_append, List.length_append, hc2] at hpv
      omega
    rw [show (si.data ++ ([',', ' '] ++ (joinSep ", " (sj :: items')).data)) ++ ']' :: rest
        = si.data ++ (',' :: ' ' :: ((joinSep ", " (sj :: items')).data ++ ']' :: rest)) from by
      simp]
    have hlen1 : si.data.length +
        (',' :: ' ' :: ((joinSep ", " (sj :: items')).data ++ ']' :: rest)).length < pfv := by
      simp only [List.length_cons, List.length_append]
      omega
    have hstep := hx.2 (',' :: ' ' :: ((joinSep ", " (sj :: items')).data ++ ']' :: rest))
      pfv hlen1 (numStop_comma _)
    show parseArrayItems (parseVal pfv) (pa + 1) _ = _
    simp only [parseArrayItems, Bind.bind, Option.bind, hstep]
    rw [show skipWs (',' :: ' ' :: ((joinSep ", " (sj :: items')).data ++ ']' :: rest))
        = ',' :: ' ' :: ((joinSep ", " (sj :: items')).data ++ ']' :: rest) from by
      simp [skipWs, show isWsChar ',' = false from by decide]]
    obtain ⟨t, ht⟩ := joinSep_head_data ", " sj items'
    have hskip2 : skipWs (' ' :: ((joinSep ", " (sj :: items')).data ++ ']' :: rest))
        = (joinSep ", " (sj :: items')).data ++ ']' :: rest := by
      rw [show skipWs (' ' :: ((joinSep ", " (sj :: items')).data ++ ']' :: rest))
          = skipWs ((joinSep ", " (sj :: items')).data ++ ']' :: rest) from by
        simp [skipWs, show isWsChar ' ' = true from by decide]]
      rw [ht, List.append_assoc, skipWs_goodStart sj.data _ hy.1]
    have hrec : parseArrayItems (parseVal pfv) pa
        (skipWs (' ' :: ((joinSep ", " (sj :: items')).data ++ ']' :: rest))) =
        some (y :: ys, rest) := by
      rw [hskip2]
      exact ih y sj hy rest pfv pa
        (by simp only [List.length_cons] at hpa; omega) (by omega)
    simp only [hrec]

theorem keyval_data (k vs : String) :
    (encodeString true k ++ ": " ++ vs).data =
      '"' :: (escapeChars escCharAscii k.data ++ '"' :: ':' :: ' ' :: vs.data) := by
  rw [string_data_append, string_data_append, encodeString_data]
  simp

/-- Scanning the members of an encoded non-empty object consumes exactly
the joined member texts and the closing brace. -/
theorem parse_obj_items (kv : String × PyValue) (si : String)
    (fs : List (String × PyValue)) (items : List String)
    (hx : ∃ vs, si = encodeString true kv.1 ++ ": " ++ vs ∧ ParsesBack kv.2 vs.data)
    (h : List.Forall₂ (fun q sj => ∃ vs, sj = encodeString true q.1 ++ ": " ++ vs ∧
      ParsesBack q.2 vs.data) fs items) :
    ∀ (rest : List Char) (pfv pfo : Nat),
      (joinSep ", " (si :: items)).data.length + 1 + rest.length < pfo →
      (joinSep ", " (si :: items)).data.length + 1 + rest.length < pfv →
      parseObjItems (parseVal pfv) pfo ((joinSep ", " (si :: items)).data ++ '\x7d' :: rest) =
        some (kv :: fs, rest) := by
  induction h generalizing kv si with
  | nil =>
    intro rest pfv pfo hpo hpv
    obtain ⟨po, rfl⟩ : ∃ po, pfo = po + 1 := ⟨pfo - 1, by omega⟩
    obtain ⟨vs, hsi, hvb⟩ := hx
    rw [joinSep_single] at hpo hpv ⊢
    subst hsi
    rw [keyval_data kv.1 vs] at hpo hpv ⊢
    have hklen : kv.1.data.length < po := by
      have h1 := escapeChars_len kv.1.data
      simp only [List.length_cons, List.length_append] at hpo
      omega
    rw [show ('"' :: (escapeChars escCharAscii kv.1.data ++ '"' :: ':' :: ' ' :: vs.data))
          ++ '\x7d' :: rest
        = '"' :: (escapeChars escCharAscii kv.1.data ++
            '"' :: (':' :: ' ' :: (vs.data ++ '\x7d' :: rest))) from by simp]
    have hkey := parseStringBody_escape kv.1.data po []
      (':' :: ' ' :: (vs.data ++ '\x7d' :: rest)) hklen
    show parseObjItems (parseVal pfv) (po + 1) _ = _
    simp only [parseObjItems, Bind.bind, Option.bind, hkey]
    rw [show skipWs (':' :: ' ' :: (vs.data ++ '\x7d' :: rest))
        = ':' :: ' ' :: (vs.data ++ '\x7d' :: rest) from by
      simp [skipWs, show isWsChar ':' = false from by decide]]
    have hvslen : vs.data.length + ('\x7d' :: rest).length < pfv := by
      simp only [List.length_cons, List.length_append] at hpv ⊢
      omega
    have hval := hvb.2 ('\x7d' :: rest) pfv hvslen (numStop_rbrace rest)
    have hskipv : skipWs (' ' :: (vs.data ++ '\x7d' :: rest)) = vs.data ++ '\x7d' :: rest := by
      rw [show skipWs (' ' :: (vs.data ++ '\x7d' :: rest))
          = skipWs (vs.data ++ '\x7d' :: rest) from by
        simp [skipWs, show isWsChar ' ' = true from by decide]]
      exact skipWs_goodStart vs.data _ hvb.1
    simp only [hskipv, hval]
    rw [show skipWs ('\x7d' :: rest) = '\x7d' :: rest from by
      simp [skipWs, show isWsChar '\x7d' = false from by decide]]
    show some ([(kv.1, kv.2)], rest) = some ([kv], rest)
    rfl
  | cons hy h2 ih =>
    intro rest pfv pfo hpo hpv
    obtain ⟨po, rfl⟩ : ∃ po, pfo = po + 1 := ⟨pfo - 1, by omega⟩
    rename_i q sj fs' items'
    obtain ⟨vs, hsi, hvb⟩ := hx
    have hjoin := joinSep_cons2 ", " si sj items'
    rw [hjoin] at hpo hpv ⊢
    subst hsi
    rw [keyval_data kv.1 vs] at hpo hpv ⊢
    have hesc := escapeChars_len kv.1.data
    have hc2 : (", ").data.length = 2 := rfl
    have hlens : (joinSep ", " (sj :: items')).data.length + vs.data.length +
        (escapeChars escCharAscii kv.1.data).length + 8 + rest.length ≤ po + 1 ∧
        (joinSep ", " (sj :: items')).data.length + vs.data.length +
        (escapeChars escCharAscii kv.1.data).length + 8 + rest.length ≤ pfv := by
      simp only [List.length_cons, List.length_append, hc2] at hpo hpv
      constructor <;> omega
    have hklen : kv.1.data.length < po := by
      simp only [List.length_cons, List.length_append, hc2] at hpo
      omega
    rw [show ('"' :: (escapeChars escCharAscii kv.1.data ++ '"' :: ':' :: ' ' :: vs.data) ++
          ([',', ' '] ++ (joinSep ", " (sj :: items')).data)) ++ '\x7d' :: rest
        = '"' :: (escapeChars escCharAscii kv.1.data ++
            '"' :: (':' :: ' ' :: (vs.data ++
              (',' :: ' ' :: ((joinSep ", " (sj :: items')).data ++ '\x7d' :: rest))))) from by
      simp]
    have hkey := parseStringBody_escape kv.1.data po []
      (':' :: ' ' :: (vs.data ++ ',' :: ' ' :: ((joinSep ", " (sj :: items')).data ++
        '\x7d' :: rest))) hklen
    show parseObjItems (parseVal pfv) (po + 1) _ = _
    simp only [parseObjItems, Bind.bind, Option.bind, hkey]
    rw [show skipWs (':' :: ' ' :: (vs.data ++ ',' :: ' ' ::
          ((joinSep ", " (sj :: items')).data ++ '\x7d' :: rest)))
        = ':' :: ' ' :: (vs.data ++ ',' :: ' ' ::
          ((joinSep ", " (sj :: items')).data ++ '\x7d' :: rest)) from by
      simp [skipWs, show isWsChar ':' = false from by decide]]
    have hvslen : vs.data.length + (',' :: ' ' ::
        ((joinSep ", " (sj :: items')).data ++ '\x7d' :: rest)).length < pfv := by
      simp only [List.length_cons, List.length_append]
      omega
    have hval := hvb.2 (',' :: ' ' :: ((joinSep ", " (sj :: items')).data ++ '\x7d' :: rest))
      pfv hvslen (numStop_comma _)
    have hskipv : skipWs (' ' :: (vs.data ++ ',' :: ' ' ::
        ((joinSep ", " (sj :: items')).data ++ '\x7d' :: rest)))
        = vs.data ++ ',' :: ' ' :: ((joinSep ", " (sj :: items')).data ++ '\x7d' :: rest) := by
      rw [show skipWs (' ' :: (vs.data ++ ',' :: ' ' ::
            ((joinSep ", " (sj :: items')).data ++ '\x7d' :: rest)))
          = skipWs (vs.data ++ ',' :: ' ' ::
            ((joinSep ", " (sj :: items')).data ++ '\x7d' :: rest)) from by
        simp [skipWs, show isWsChar ' ' = true from by decide]]
      exact skipWs_goodStart vs.data _ hvb.1
    simp only [hskipv, hval]
    rw [show skipWs (',' :: ' ' :: ((joinSep ", " (sj :: items')).data ++ '\x7d' :: rest))
        = ',' :: ' ' :: ((joinSep ", " (sj :: items')).data ++ '\x7d' :: rest) from by
      simp [skipWs, show isWsChar ',' = false from by decide]]
    obtain ⟨t, ht⟩ := joinSep_head_data ", " sj items'
    obtain ⟨vs', hsj', hvb'⟩ := hy
    have hsjgood : goodStart sj.data := by
      rw [hsj', keyval_data q.1 vs']
      exact ⟨by decide, by decide, by decide⟩
    have hskip2 : skipWs (' ' :: ((joinSep ", " (sj :: items')).data ++ '\x7d' :: rest))
        = (joinSep ", " (sj :: items')).data ++ '\x7d' :: rest := by
      rw [show skipWs (' ' :: ((joinSep ", " (sj :: items')).data ++ '\x7d' :: rest))
          = skipWs ((joinSep ", " (sj :: items')).data ++ '\x7d' :: rest) from by
        simp [skipWs, show isWsChar ' ' = true from by decide]]
      rw [ht, List.append_assoc, skipWs_goodStart sj.data _ hsjgood]
    have hrec : parseObjItems (parseVal pfv) po
        (skipWs (' ' :: ((joinSep ", " (sj :: items')).data ++ '\x7d' :: rest))) =
        some (q :: fs', rest) := by
      rw [hskip2]
      exact ih q sj ⟨vs', hsj', hvb'⟩ rest pfv po (by omega) (by omega)
    simp only [hrec]
    rfl

theorem goodStart_append {l : List Char} (t : List Char) (h : goodStart l) :
    goodStart (l ++ t) := by
  cases l with
  | nil => exact absurd h (by simp [goodStart])
  | cons c l' => exact h

theorem parseVal_lbracket (pf : Nat) (l : List Char) :
    parseVal (pf + 1) ('[' :: l) =
      (match skipWs l with
       | [] => Option.none
       | d :: r1 =>
         if d = ']' then some (.list [], r1)
         else (parseArrayItems (parseVal pf) pf (d :: r1)).map
           (fun p => (.list p.1, p.2))) := rfl

theorem parseVal_lbrace (pf : Nat) (l : List Char) :
    parseVal (pf + 1) ('\x7b' :: l) =
      (match skipWs l with
       | [] => Option.none
       | d :: r1 =>
         if d = '\x7d' then some (.dict [], r1)
         else (parseObjItems (parseVal pf) pf (d :: r1)).map
           (fun p => (.dict (dictOfPairs p.1), p.2))) := rfl

theorem forall2_joinSep_count (si : String) (ys : List PyValue) (sjs : List String)
    (h : List.Forall₂ (fun y sj => ParsesBack y sj.data) ys sjs) :
    sjs.length ≤ (joinSep ", " (si :: sjs)).data.length := by
  induction h generalizing si with
  | nil => simp
  | cons hy h2 ih =>
    rename_i y sj ys' sjs'
    rw [joinSep_cons2]
    have h1 := ih sj
    have hc2 : (", ").data.length = 2 := rfl
    simp only [List.length_cons, List.length_append, hc2]
    omega

theorem forall2_obj_joinSep_count (si : String) (ys : List (String × PyValue))
    (sjs : List String)
    (h : List.Forall₂ (fun q sj => ∃ vs, sj = encodeString true q.1 ++ ": " ++ vs ∧
      ParsesBack q.2 vs.data) ys sjs) :
    sjs.length ≤ (joinSep ", " (si :: sjs)).data.length := by
  induction h generalizing si with
  | nil => simp
  | cons hy h2 ih =>
    rename_i y sj ys' sjs'
    rw [joinSep_cons2]
    have h1 := ih sj
    have hc2 : (", ").data.length = 2 := rfl
    simp only [List.length_cons, List.length_append, hc2]
    omega

theorem defaultCfg_indent :
    (encCfgOfOptions defaultEncoderOptions).indent = Option.none := rfl

theorem defaultCfg_isep :
    (encCfgOfOptions defaultEncoderOptions).item_sep = ", " := rfl

/-- Every well-formed natively encodable value encoded at default options
parses back to itself, whatever continuation follows. -/
theorem encode_parse_back : ∀ (fuelE : Nat) (v : PyValue) (lvl : Nat) (s : String)
    (hook : PyValue → Except PyError PyValue),
    JsonWf v →
    encodeVal (encCfgOfOptions defaultEncoderOptions) hook fuelE lvl v = .ok s →
    ParsesBack v s.data := by
  intro fuelE
  induction fuelE with
  | zero =>
    intro v lvl s hook wf h
    exact absurd h (by simp [encodeVal])
  | succ fuelE ih =>
    intro v lvl s hook wf henc
    cases wf with
    | none =>
      simp only [encodeVal] at henc
      cases henc
      refine ⟨⟨by decide, by decide, by decide⟩, ?_⟩
      intro rest pf hlen hstop
      obtain ⟨pf', rfl⟩ : ∃ x, pf = x + 1 := ⟨pf - 1, by omega⟩
      rfl
    | bool b =>
      cases b with
      | true =>
        simp only [encodeVal] at henc
        cases henc
        refine ⟨⟨by decide, by decide, by decide⟩, ?_⟩
        intro rest pf hlen hstop
        obtain ⟨pf', rfl⟩ : ∃ x, pf = x + 1 := ⟨pf - 1, by omega⟩
        rfl
      | false =>
        simp only [encodeVal] at henc
        cases henc
        refine ⟨⟨by decide, by decide, by decide⟩, ?_⟩
        intro rest pf hlen hstop
        obtain ⟨pf', rfl⟩ : ∃ x, pf = x + 1 := ⟨pf - 1, by omega⟩
        rfl
    | int n =>
      simp only [encodeVal] at henc
      cases henc
      refine ⟨goodStart_intRepr n, ?_⟩
      intro rest pf hlen hstop
      obtain ⟨pf', rfl⟩ : ∃ x, pf = x + 1 := ⟨pf - 1, by omega⟩
      exact parseVal_intRepr n rest pf' hstop
    | str s0 =>
      simp only [encodeVal] at henc
      cases henc
      refine ⟨goodStart_encodeString s0, ?_⟩
      intro rest pf hlen hstop
      obtain ⟨pf', rfl⟩ : ∃ x, pf = x + 1 := ⟨pf - 1, by omega⟩
      exact parseVal_string s0 rest pf' hlen
    | list xs hxs =>
      cases xs with
      | nil =>
        simp only [encodeVal] at henc
        cases henc
        refine ⟨⟨by decide, by decide, by decide⟩, ?_⟩
        intro rest pf hlen hstop
        obtain ⟨pf', rfl⟩ : ∃ x, pf = x + 1 := ⟨pf - 1, by omega⟩
        rfl
      | cons x xs' =>
        simp only [encodeVal] at henc
        cases hitems : encodeItems
            (fun u => encodeVal (encCfgOfOptions defaultEncoderOptions) hook fuelE (lvl + 1) u)
            (x :: xs') with
        | error e => rw [hitems] at henc; exact absurd henc (by simp [Bind.bind, Except.bind])
        | ok items =>
          rw [hitems] at henc
          simp only [Bind.bind, Except.bind] at henc
          cases henc
          have hf2 := encodeItems_forall2 _ _ _ hitems
          have conv2 : ∀ (ys : List PyValue) (sjs : List String), (∀ y ∈ ys, JsonWf y) →
              List.Forall₂ (fun y sj =>
                encodeVal (encCfgOfOptions defaultEncoderOptions) hook fuelE (lvl + 1) y
                  = .ok sj) ys sjs →
              List.Forall₂ (fun y sj => ParsesBack y sj.data) ys sjs := by
            intro ys
            induction ys with
            | nil => intro sjs hwf hf; cases hf; exact List.Forall₂.nil
            | cons y ys ihy =>
              intro sjs hwf hf
              cases hf with
              | cons hy hf' =>
                exact List.Forall₂.cons (ih y (lvl + 1) _ hook (hwf y (by simp)) hy)
                  (ihy _ (fun z hz => hwf z (by simp [hz])) hf')
          have hfp := conv2 (x :: xs') items (by simpa using hxs) hf2
          cases hfp with
          | cons hxP hfp' =>
            rename_i si items'
            have hwrap : wrapSeq (encCfgOfOptions defaultEncoderOptions) lvl "[" "]"
                (si :: items') = "[" ++ joinSep ", " (si :: items') ++ "]" := by
              simp only [wrapSeq, defaultCfg_indent, defaultCfg_isep]
            rw [hwrap]
            have hdata : ("[" ++ joinSep ", " (si :: items') ++ "]").data
                = '[' :: ((joinSep ", " (si :: items')).data ++ [']']) := by
              rw [string_data_append, string_data_append]
              rfl
            rw [hdata]
            refine ⟨⟨by decide, by decide, by decide⟩, ?_⟩
            intro rest pf hlen hstop
            obtain ⟨pf', rfl⟩ : ∃ y, pf = y + 1 := ⟨pf - 1, by omega⟩
            have hgJ : goodStart (joinSep ", " (si :: items')).data := by
              obtain ⟨t, ht⟩ := joinSep_head_data ", " si items'
              rw [ht]
              exact goodStart_append t hxP.1
            obtain ⟨c0, t0, hJ⟩ : ∃ c0 t0, (joinSep ", " (si :: items')).data = c0 :: t0 := by
              cases hJ0 : (joinSep ", " (si :: items')).data with
              | nil => rw [hJ0] at hgJ; exact absurd hgJ (by simp [goodStart])
              | cons a b => exact ⟨a, b, rfl⟩
            have hg0 : isWsChar c0 = false ∧ c0 ≠ ']' ∧ c0 ≠ '\x7d' := by
              rw [hJ] at hgJ; exact hgJ
            rw [show ('[' :: ((joinSep ", " (si :: items')).data ++ [']'])) ++ rest
                = '[' :: ((joinSep ", " (si :: items')).data ++ ']' :: rest) from by simp]
            rw [parseVal_lbracket]
            rw [hJ, List.cons_append]
            rw [show skipWs (c0 :: (t0 ++ ']' :: rest)) = c0 :: (t0 ++ ']' :: rest) from by
              simp [skipWs, hg0.1]]
            simp only [if_neg hg0.2.1]
            rw [show c0 :: (t0 ++ ']' :: rest)
                = (joinSep ", " (si :: items')).data ++ ']' :: rest from by rw [hJ]; rfl]
            rw [parse_array_items x si xs' items' hxP hfp' rest (pf' ) pf'
              (by
                have hcnt := forall2_joinSep_count si xs' items' hfp'
                simp only [List.length_cons, List.length_append, List.length_singleton] at hlen
                omega)
              (by
                simp only [List.length_cons, List.length_append, List.length_singleton] at hlen
                omega)]
            rfl
    | dict fs hnd hfs =>
      cases fs with
      | nil =>
        simp only [encodeVal] at henc
        cases henc
        refine ⟨⟨by decide, by decide, by decide⟩, ?_⟩
        intro rest pf hlen hstop
        obtain ⟨pf', rfl⟩ : ∃ x, pf = x + 1 := ⟨pf - 1, by omega⟩
        rfl
      | cons kv fs' =>
        simp only [encodeVal] at henc
        rw [show (if (encCfgOfOptions defaultEncoderOptions).sort_keys = true
            then sortFields (kv :: fs') else kv :: fs') = kv :: fs' from by
          rw [show (encCfgOfOptions defaultEncoderOptions).sort_keys = false from rfl]
          simp] at henc
        cases hitems : encodeFields (encCfgOfOptions defaultEncoderOptions)
            (fun u => encodeVal (encCfgOfOptions defaultEncoderOptions) hook fuelE (lvl + 1) u)
            (kv :: fs') with
        | error e => rw [hitems] at henc; exact absurd henc (by simp [Bind.bind, Except.bind])
        | ok items =>
          rw [hitems] at henc
          simp only [Bind.bind, Except.bind] at henc
          cases henc
          have hf2 := encodeFields_forall2 _ _ _ _ hitems
          have conv3 : ∀ (ys : List (String × PyValue)) (sjs : List String),
              (∀ q ∈ ys, JsonWf q.2) →
              List.Forall₂ (fun (q : String × PyValue) sj => ∃ vs,
                encodeVal (encCfgOfOptions defaultEncoderOptions) hook fuelE (lvl + 1) q.2
                  = .ok vs ∧
                sj = encodeString (encCfgOfOptions defaultEncoderOptions).ensure_ascii q.1 ++
                  (encCfgOfOptions defaultEncoderOptions).key_sep ++ vs) ys sjs →
              List.Forall₂ (fun (q : String × PyValue) sj => ∃ vs,
                sj = encodeString true q.1 ++ ": " ++ vs ∧ ParsesBack q.2 vs.data) ys sjs := by
            intro ys
            induction ys with
            | nil => intro sjs hwf hf; cases hf; exact List.Forall₂.nil
            | cons y ys ihy =>
              intro sjs hwf hf
              cases hf with
              | cons hy hf' =>
                obtain ⟨vs, hvenc, hsj⟩ := hy
                exact List.Forall₂.cons
                  ⟨vs, hsj, ih y.2 (lvl + 1) vs hook (hwf y (by simp)) hvenc⟩
                  (ihy _ (fun z hz => hwf z (by simp [hz])) hf')
          have hfp := conv3 (kv :: fs') items (by simpa using hfs) hf2
          cases hfp with
          | cons hxP hfp' =>
            rename_i si items'
            have hwrap : wrapSeq (encCfgOfOptions defaultEncoderOptions) lvl "\x7b" "\x7d"
                (si :: items') = "\x7b" ++ joinSep ", " (si :: items') ++ "\x7d" := by
              simp only [wrapSeq, defaultCfg_indent, defaultCfg_isep]
            rw [hwrap]
            have hdata : ("\x7b" ++ joinSep ", " (si :: items') ++ "\x7d").data
                = '\x7b' :: ((joinSep ", " (si :: items')).data ++ ['\x7d']) := by
              rw [string_data_append, string_data_append]
              rfl
            rw [hdata]
            refine ⟨⟨by decide, by decide, by decide⟩, ?_⟩
            intro rest pf hlen hstop
            obtain ⟨pf', rfl⟩ : ∃ y, pf = y + 1 := ⟨pf - 1, by omega⟩
            obtain ⟨vs0, hsi0, hvb0⟩ := hxP
            have hgJ : goodStart (joinSep ", " (si :: items')).data := by
              obtain ⟨t, ht⟩ := joinSep_head_data ", " si items'
              rw [ht, hsi0, keyval_data]
              exact goodStart_append _ ⟨by decide, by decide, by decide⟩
            obtain ⟨c0, t0, hJ⟩ : ∃ c0 t0, (joinSep ", " (si :: items')).data = c0 :: t0 := by
              cases hJ0 : (joinSep ", " (si :: items')).data with
              | nil => rw [hJ0] at hgJ; exact absurd hgJ (by simp [goodStart])
              | cons a b => exact ⟨a, b, rfl⟩
            have hg0 : isWsChar c0 = false ∧ c0 ≠ ']' ∧ c0 ≠ '\x7d' := by
              rw [hJ] at hgJ; exact hgJ
            rw [show ('\x7b' :: ((joinSep ", " (si :: items')).data ++ ['\x7d'])) ++ rest
                = '\x7b' :: ((joinSep ", " (si :: items')).data ++ '\x7d' :: rest) from by simp]
            rw [parseVal_lbrace]
            rw [hJ, List.cons_append]
            rw [show skipWs (c0 :: (t0 ++ '\x7d' :: rest)) = c0 :: (t0 ++ '\x7d' :: rest) from by
              simp [skipWs, hg0.1]]
            simp only [if_neg hg0.2.2]
            rw [show c0 :: (t0 ++ '\x7d' :: rest)
                = (joinSep ", " (si :: items')).data ++ '\x7d' :: rest from by rw [hJ]; rfl]
            rw [parse_obj_items kv si fs' items' ⟨vs0, hsi0, hvb0⟩ hfp' rest pf' pf'
              (by
                simp only [List.length_cons, List.length_append, List.length_singleton] at hlen
                omega)
              (by
                simp only [List.length_cons, List.length_append, List.length_singleton] at hlen
                omega)]
            have hdict : dictOfPairs (kv :: fs') = kv :: fs' :=
              dictOfPairs_nodup _ hnd
            simp only [Option.map, hdict]

/-- C6: the round-trip law — for every well-formed natively encodable value
(null, booleans, integers, strings, lists and dicts with distinct keys),
whenever `dumps` at default options succeeds, `loads` of the produced text
returns exactly the original value. -/
theorem c6_roundtrip (reg : Registry) (fuelE : Nat) (v : PyValue) (s : String)
    (wf : JsonWf v) (henc : dumps reg defaultOptions fuelE v = .ok s) :
    loads s = .ok v := by
  have h : encodeVal (encCfgOfOptions defaultEncoderOptions) (customDefault reg)
      fuelE 0 v = .ok s := by
    simpa [dumps, isDefaults_defaultOptions, defaultEncoderEncode] using henc
  obtain ⟨hgs, hp⟩ := encode_parse_back fuelE v 0 s (customDefault reg) wf h
  have hskip : skipWs s.data = s.data := by
    have hx := skipWs_goodStart s.data [] hgs
    simpa using hx
  have hp0 := hp [] (s.data.length + 1) (by simp) trivial
  rw [List.append_nil] at hp0
  simp only [loads, hskip, hp0]
  rfl

/-- C6 witness: a sample nested value round-trips through its encoded
text. -/
theorem c6_witness :
    loads "\x7b\"k\": [-12, true, null, \"a\\n\"]\x7d" =
      .ok (.dict [("k", .list [.int (-12), .bool true, .none, .str "a\n"])]) :=
  c6_roundtrip initRegistry 5
    (.dict [("k", .list [.int (-12), .bool true, .none, .str "a\n"])])
    "\x7b\"k\": [-12, true, null, \"a\\n\"]\x7d"
    (by
      apply JsonWf.dict
      · simp
      · intro p hp
        simp only [List.mem_singleton] at hp
        subst hp
        apply JsonWf.list
        intro x hx
        simp only [List.mem_cons, List.not_mem_nil, or_false] at hx
        rcases hx with rfl | rfl | rfl | rfl
        · exact JsonWf.int _
        · exact JsonWf.bool _
        · exact JsonWf.none
        · exact JsonWf.str _)
    rfl
